import Mathlib

/-!
Shallow embedding of the Nexi memory subsystem (`src/memory/store.ts`).

Modelling conventions:
* JavaScript numbers are modelled as `Option ℚ`: `none` is `NaN`, `some q` a
  finite number.  `Math.round x` is `⌊x + 1/2⌋` (round half towards +∞), which
  is the ECMAScript definition in exact arithmetic.
* Timestamps (`Date` values, persisted as ISO-8601 strings whose lexicographic
  order coincides with chronological order) are modelled as integers
  (milliseconds since the epoch).
* The SQLite `memories` table is a list of typed rows in rowid (insertion)
  order; the `state` table is a list of key/serialized-value rows.  `tags` is
  kept typed (the store serialises it as JSON and parses it back on read).
* SQL `LIKE '%w%'` with a pattern free of wildcard metacharacters is an
  ASCII-case-insensitive substring test, which is how it is modelled here
  (every pattern the store builds comes from wildcard-free tokens).
* Embedded vectors are stored as JSON number arrays; stored vectors are
  modelled as rational lists, and cosine similarity is computed over ℝ.
-/

namespace Nexi

/-- A JavaScript number: `none` models `NaN`, `some q` a finite value. -/
abbrev JSNum := Option ℚ

/-- ECMAScript `Math.round`: round half towards positive infinity. -/
def jround (q : ℚ) : ℤ := ⌊q + 1/2⌋

/-- The closed enumeration of memory types (`MemoryType` in `types/index.ts`). -/
inductive MemoryType where
  | preference
  | fact
  | event
  | milestone
  | reflection
  | request
  | pattern
deriving DecidableEq, Repr

/-- A row of the `memories` table, typed as the `Memory` interface. -/
structure Memory where
  id : String
  type : MemoryType
  content : String
  context : Option String
  importance : ℚ
  emotional_weight : ℚ
  created_at : ℤ
  last_accessed : ℤ
  access_count : ℕ
  tags : List String
  related_user : Option String
  embedding : Option (List ℚ)
deriving DecidableEq, Repr

/-- A row of the `state` table: key, serialized JSON value, update time. -/
structure StateRow where
  key : String
  value : List Char
  updated_at : ℤ
deriving DecidableEq, Repr

/-- The persistent database owned by one `MemoryStore`. -/
structure StoreState where
  memories : List Memory
  stateRows : List StateRow
deriving DecidableEq, Repr

/-- Input to `store` / `storeWithEmbedding`: every `Memory` field except the
generated `id`, `created_at`, `last_accessed`, `access_count`. -/
structure MemoryDraft where
  type : MemoryType
  content : String
  context : Option String := none
  importance : JSNum
  emotional_weight : JSNum
  tags : List String
  related_user : Option String := none

/-- Clamp importance to 1..10 after rounding; `NaN` defaults to 5
(`validateImportance` in the source). -/
def validateImportance (v : JSNum) : ℚ :=
  match v with
  | none => 5
  | some q => ((max 1 (min 10 (jround q)) : ℤ) : ℚ)

/-- Clamp emotional weight to -5..5 after rounding; `NaN` defaults to 0
(`validateEmotionalWeight` in the source). -/
def validateEmotionalWeight (v : JSNum) : ℚ :=
  match v with
  | none => 0
  | some q => ((max (-5) (min 5 (jround q)) : ℤ) : ℚ)

/-- The `store` method: validate, build the full record with fresh id and
timestamps, insert it.  The generated uuid and the clock are parameters. -/
def store (st : StoreState) (d : MemoryDraft) (newId : String) (now : ℤ) :
    Memory × StoreState :=
  let m : Memory :=
    { id := newId
      type := d.type
      content := d.content
      context := d.context
      importance := validateImportance d.importance
      emotional_weight := validateEmotionalWeight d.emotional_weight
      created_at := now
      last_accessed := now
      access_count := 1
      tags := d.tags
      related_user := d.related_user
      embedding := none }
  (m, { st with memories := st.memories ++ [m] })

/-- The `storeWithEmbedding` method.  The embedding generator is `none` when
unset; a configured generator returns `none` when the async call fails. -/
def storeWithEmbedding (gen : Option (String → Option (List ℚ)))
    (st : StoreState) (d : MemoryDraft) (newId : String) (now : ℤ) :
    Memory × StoreState :=
  let emb : Option (List ℚ) :=
    match gen with
    | none => none
    | some g => g d.content
  let m : Memory :=
    { id := newId
      type := d.type
      content := d.content
      context := d.context
      importance := validateImportance d.importance
      emotional_weight := validateEmotionalWeight d.emotional_weight
      created_at := now
      last_accessed := now
      access_count := 1
      tags := d.tags
      related_user := d.related_user
      embedding := emb }
  (m, { st with memories := st.memories ++ [m] })

/-- The touch side effect: increment `access_count`, refresh `last_accessed`. -/
def touch (now : ℤ) (m : Memory) : Memory :=
  { m with access_count := m.access_count + 1, last_accessed := now }

/-- The `get` method: select by id; on a hit, touch the stored row but return
the row as read before the touch. -/
def get (st : StoreState) (id : String) (now : ℤ) :
    Option Memory × StoreState :=
  match st.memories.find? (fun m => m.id == id) with
  | none => (none, st)
  | some row =>
      (some row,
       { st with
           memories := st.memories.map (fun m => if m.id == id then touch now m else m) })

/-- The partial update accepted by the `update` method. -/
structure MemoryUpdate where
  content : Option String := none
  context : Option String := none
  importance : Option ℚ := none
  emotional_weight : Option ℚ := none
  tags : Option (List String) := none

/-- Whether at least one field of the partial update is provided. -/
def MemoryUpdate.hasField (u : MemoryUpdate) : Bool :=
  u.content.isSome || u.context.isSome || u.importance.isSome ||
    u.emotional_weight.isSome || u.tags.isSome

/-- Apply the provided fields of a partial update to one row.  Note that the
source pushes `updates.importance` / `updates.emotional_weight` into the SQL
`SET` clause verbatim, without `validateImportance` / `validateEmotionalWeight`. -/
def applyUpdates (u : MemoryUpdate) (m : Memory) : Memory :=
  { m with
      content := u.content.getD m.content
      context := match u.context with | none => m.context | some c => some c
      importance := u.importance.getD m.importance
      emotional_weight := u.emotional_weight.getD m.emotional_weight
      tags := u.tags.getD m.tags }

/-- The `update` method: returns false when no field is provided or no row has
the id; otherwise applies exactly the provided fields to the matching row. -/
def update (st : StoreState) (id : String) (u : MemoryUpdate) :
    Bool × StoreState :=
  if ¬ u.hasField then (false, st)
  else
    (st.memories.any (fun m => m.id == id),
     { st with
         memories := st.memories.map (fun m => if m.id == id then applyUpdates u m else m) })

/-- The `delete` method: remove the rows with the id, report whether any row
was removed (`result.changes > 0`). -/
def delete (st : StoreState) (id : String) : Bool × StoreState :=
  (st.memories.any (fun m => m.id == id),
   { st with memories := st.memories.filter (fun m => !(m.id == id)) })

/-- Milliseconds per day, used to form the decay cutoff. -/
def msPerDay : ℤ := 86400000

/-- The decay deletion condition: stale, unimportant, and not protected. -/
def decayCond (now daysOld : ℤ) (maxImportance : ℚ) (m : Memory) : Bool :=
  decide (m.last_accessed < now - daysOld * msPerDay) &&
    decide (m.importance ≤ maxImportance) &&
    !(m.type == MemoryType.milestone) && !(m.type == MemoryType.request)

/-- The `decay` method: delete stale low-importance unprotected rows, return
the number of rows removed. -/
def decay (st : StoreState) (now : ℤ) (daysOld : ℤ) (maxImportance : ℚ) :
    ℕ × StoreState :=
  ((st.memories.filter (decayCond now daysOld maxImportance)).length,
   { st with memories := st.memories.filter (fun m => !(decayCond now daysOld maxImportance m)) })

/-! Sorting.  SQL `ORDER BY` / `Array.prototype.sort` tie order is determinized
here by a stable insertion sort on the given precedence test. -/

/-- Insert `x` before the first element it must not follow. -/
def insertBy {α : Type} (le : α → α → Bool) (x : α) : List α → List α
  | [] => [x]
  | y :: ys => if le x y then x :: y :: ys else y :: insertBy le x ys

/-- Stable insertion sort by a precedence test. -/
def sortBy {α : Type} (le : α → α → Bool) : List α → List α
  | [] => []
  | x :: xs => insertBy le x (sortBy le xs)

/-- ASCII-lowercase a character list (JS `toLowerCase` / SQL `LOWER`,
restricted to ASCII as SQLite's `LOWER` and `LIKE` are). -/
def lowerCL (cs : List Char) : List Char := cs.map Char.toLower

/-- Case-insensitive substring test modelling `LIKE '%pat%'` for a pattern
free of wildcard metacharacters. -/
def likeContains (hay : List Char) (needle : List Char) : Bool :=
  decide (lowerCL needle <:+: lowerCL hay)

/-- A character of the regex class `\w`: ASCII letters, digits, underscore. -/
def isWordChar (c : Char) : Bool := c.isAlphanum || c == '_'

/-- Accumulator of the whitespace splitter: `acc` is the current run,
reversed. -/
def splitWsAux : List Char → List Char → List (List Char)
  | [], acc => if acc = [] then [] else [acc.reverse]
  | c :: cs, acc =>
      if c.isWhitespace then
        (if acc = [] then splitWsAux cs [] else acc.reverse :: splitWsAux cs [])
      else splitWsAux cs (c :: acc)

/-- Split a character list into maximal runs of non-whitespace characters. -/
def splitWs (cs : List Char) : List (List Char) :=
  splitWsAux cs []

/-- The tokenizer shared by `findRelevant` (words longer than 3) and
`textSimilarity` (words longer than 2): lowercase, strip characters that are
neither word characters nor whitespace, split on whitespace, keep words longer
than `minLen`. -/
def normWords (minLen : ℕ) (s : String) : List String :=
  let cleaned := (s.data.map Char.toLower).filter (fun c => isWordChar c || c.isWhitespace)
  ((splitWs cleaned).filter (fun w => minLen < w.length)).map (fun w => String.mk w)

/-- Lowercase hexadecimal digit for one value below 16. -/
def hexDigit (n : ℕ) : Char :=
  if n < 10 then Char.ofNat (48 + n) else Char.ofNat (87 + n)

/-- JSON escaping of one character, as `JSON.stringify` emits it. -/
def escapeChar (c : Char) : List Char :=
  if c = '"' then ['\\', '"']
  else if c = '\\' then ['\\', '\\']
  else if c.toNat = 10 then ['\\', 'n']
  else if c.toNat = 13 then ['\\', 'r']
  else if c.toNat = 9 then ['\\', 't']
  else if c.toNat = 8 then ['\\', 'b']
  else if c.toNat = 12 then ['\\', 'f']
  else if c.toNat < 32 then
    ['\\', 'u', '0', '0', hexDigit (c.toNat / 16), hexDigit (c.toNat % 16)]
  else [c]

/-- A JSON string literal: quote, escaped body, quote. -/
def encodeStr (cs : List Char) : List Char :=
  '"' :: (cs.map escapeChar).flatten ++ ['"']

/-- Comma-join pre-rendered fragments. -/
def commaJoin : List (List Char) → List Char
  | [] => []
  | [x] => x
  | x :: xs => x ++ ',' :: commaJoin xs

/-- The text `JSON.stringify` produces for a tag list, as persisted in the
`tags` column and searched by the tag `LIKE` clause. -/
def serTagsText (tags : List String) : List Char :=
  '[' :: commaJoin (tags.map (fun t => encodeStr t.data)) ++ [']']

/-- The `LIKE` pattern body the source builds for one tag: a double-quoted
copy of the raw tag text. -/
def tagPattern (t : String) : List Char :=
  '"' :: t.data ++ ['"']

/-- The filter criteria accepted by the `query` method. -/
structure MemoryQuery where
  type : Option MemoryType := none
  tags : Option (List String) := none
  minImportance : Option ℚ := none
  search : Option String := none
  limit : Option ℕ := none

/-- Whether one row matches all provided criteria.  The source guards each
clause with JavaScript truthiness, so `minImportance = 0`, `search = ""`,
`tags = []` and `limit = 0` behave as if absent.  A `NULL` context never
matches the search clause (SQL three-valued logic). -/
def queryCond (q : MemoryQuery) (m : Memory) : Bool :=
  (match q.type with
   | none => true
   | some t => m.type == t) &&
  (match q.minImportance with
   | none => true
   | some v => if v = 0 then true else decide (v ≤ m.importance)) &&
  (match q.search with
   | none => true
   | some s =>
       if s = "" then true
       else likeContains m.content.data s.data ||
         (match m.context with
          | none => false
          | some c => likeContains c.data s.data)) &&
  (match q.tags with
   | none => true
   | some l =>
       if l = [] then true
       else l.any (fun t =>
         likeContains (serTagsText m.tags) (tagPattern t)))

/-- Precedence for `ORDER BY importance DESC, last_accessed DESC`. -/
def memOrder (a b : Memory) : Bool :=
  decide (b.importance < a.importance) ||
    (decide (a.importance = b.importance) && decide (b.last_accessed ≤ a.last_accessed))

/-- The `query` method: filter conjunctively, order by importance then
recency, apply a truthy limit, and touch every returned row as a side effect
(the rows are returned as read, before the touch). -/
def query (st : StoreState) (q : MemoryQuery) (now : ℤ) :
    List Memory × StoreState :=
  let sorted := sortBy memOrder (st.memories.filter (queryCond q))
  let rows :=
    match q.limit with
    | none => sorted
    | some n => if n = 0 then sorted else sorted.take n
  let ids := rows.map (fun m => m.id)
  (rows,
   { st with memories := st.memories.map (fun m => if ids.contains m.id then touch now m else m) })

/-- The keyword relevance score `importance * 2 + access_count`. -/
def relevanceScore (m : Memory) : ℚ := m.importance * 2 + m.access_count

/-- Precedence for `ORDER BY relevance_score DESC`. -/
def scoreOrder (a b : Memory) : Bool := decide (relevanceScore b ≤ relevanceScore a)

/-- Whether a row matches a keyword: `LOWER(content) LIKE '%w%' OR
LOWER(context) LIKE '%w%'`, a `NULL` context matching nothing. -/
def keywordMatch (m : Memory) (w : String) : Bool :=
  likeContains m.content.data w.data ||
    (match m.context with
     | none => false
     | some c => likeContains c.data w.data)

/-- The `findRelevant` method: tokenize; with no surviving token fall back to
`query {minImportance := 6, limit}`; otherwise select rows matching any token,
order by relevance score, take `limit`.  The keyword path performs no touch. -/
def findRelevant (st : StoreState) (text : String) (limit : ℕ) (now : ℤ) :
    List Memory × StoreState :=
  let words := normWords 3 text
  if words = [] then
    query st { minImportance := some 6, limit := some limit } now
  else
    let matched := st.memories.filter (fun m => words.any (fun w => keywordMatch m w))
    ((sortBy scoreOrder matched).take limit, st)

/-- Cosine similarity over real vectors (`cosineSimilarity` in the source):
0 for mismatched or empty lengths, 0 for a zero denominator, otherwise
`dot / (sqrt (Σ aᵢ²) * sqrt (Σ bᵢ²))`. -/
noncomputable def cosineSimilarity (a b : List ℝ) : ℝ :=
  if a.length ≠ b.length ∨ a.length = 0 then 0
  else
    let denom := Real.sqrt ((a.map (fun x => x * x)).sum) *
      Real.sqrt ((b.map (fun x => x * x)).sum)
    if denom = 0 then 0 else (List.zipWith (fun x y => x * y) a b).sum / denom

/-- The Euclidean norm of a vector, for stating the cosine specification. -/
noncomputable def vecNorm (a : List ℝ) : ℝ := Real.sqrt ((a.map (fun x => x * x)).sum)

/-- The dot product of equal-length vectors. -/
def dotProduct (a b : List ℝ) : ℝ := (List.zipWith (fun x y => x * y) a b).sum

/-- The `findRelevantSemantic` method: with no generator, or a failing
generator, delegate to `findRelevant`; otherwise score all rows holding an
embedding by cosine similarity to the query vector, keep those above 0.3,
sort descending, take `limit`; fall back to `findRelevant` when nothing
qualifies.  The semantic path performs no touch. -/
noncomputable def findRelevantSemantic (gen : Option (String → Option (List ℚ)))
    (st : StoreState) (text : String) (limit : ℕ) (now : ℤ) :
    List Memory × StoreState :=
  match gen with
  | none => findRelevant st text limit now
  | some g =>
      match g text with
      | none => findRelevant st text limit now
      | some qe =>
          let rows := st.memories.filter (fun m => m.embedding.isSome)
          let scored := rows.map (fun m =>
            (m, cosineSimilarity (qe.map (fun x => (x : ℝ)))
              (((m.embedding.getD []).map (fun x => (x : ℝ))))))
          let kept := scored.filter (fun p => decide ((0.3 : ℝ) < p.2))
          let top := (sortBy (fun p q => decide (q.2 ≤ p.2)) kept).take limit
          if top.isEmpty then findRelevant st text limit now
          else (top.map (fun p => p.1), st)

/-- Jaccard word-set similarity (`textSimilarity` in the source): word sets of
words longer than 2; two empty sets are similarity 1, one empty set is 0,
otherwise `|intersection| / |union|`. -/
def textSimilarity (t1 t2 : String) : ℚ :=
  let w1 := (normWords 2 t1).toFinset
  let w2 := (normWords 2 t2).toFinset
  if w1.card = 0 ∧ w2.card = 0 then 1
  else if w1.card = 0 ∨ w2.card = 0 then 0
  else ((w1 ∩ w2).card : ℚ) / ((w1 ∪ w2).card : ℚ)

/-- Precedence for `ORDER BY created_at ASC`. -/
def createdOrder (a b : Memory) : Bool := decide (a.created_at ≤ b.created_at)

/-- All ordered pairs `(xs[i], xs[j])` with `i < j`. -/
def orderedPairs {α : Type} : List α → List (α × α)
  | [] => []
  | x :: xs => (xs.map (fun y => (x, y))) ++ orderedPairs xs

/-- The `findDuplicates` method: pairwise compare all rows in `created_at`
order; keep the pairs whose content similarity meets the threshold, tagged
with that similarity. -/
def findDuplicates (st : StoreState) (threshold : ℚ) :
    List (Memory × Memory × ℚ) :=
  ((orderedPairs (sortBy createdOrder st.memories)).map
      (fun p => (p.1, p.2, textSimilarity p.1.content p.2.content))).filter
    (fun t => decide (threshold ≤ t.2.2))

/-- Deduplicate a list keeping the first occurrence of each element, as the
JavaScript `Set` constructor does. -/
def firstDedup : List String → List String
  | [] => []
  | x :: xs => x :: firstDedup (xs.filter (fun y => !(y == x)))
termination_by l => l.length
decreasing_by
  have := List.length_filter_le (fun y => !(y == x)) xs
  simp at this ⊢; omega

/-- The record a duplicate pair deletes: the `duplicate` (later-created) when
the `original` has greater or equal importance, otherwise the `original`
(`original.importance >= duplicate.importance ? duplicate : original`). -/
def dedupDelete (p : Memory × Memory × ℚ) : Memory :=
  if p.2.1.importance ≤ p.1.importance then p.2.1 else p.1

/-- The surviving record of a duplicate pair. -/
def dedupKeep (p : Memory × Memory × ℚ) : Memory :=
  if p.2.1.importance ≤ p.1.importance then p.1 else p.2.1

/-- The merged tag list written to the survivor before the deletion. -/
def dedupMergedTags (p : Memory × Memory × ℚ) : List String :=
  firstDedup ((dedupKeep p).tags ++ (dedupDelete p).tags)

/-- One iteration of the `deduplicate` loop over a duplicate pair: choose the
lower-importance record for deletion (ties delete the later-created
`duplicate`), merge both tag lists into the survivor, delete, and count the
deletion when a row was actually removed. -/
def dedupStep (acc : ℕ × StoreState) (p : Memory × Memory × ℚ) :
    ℕ × StoreState :=
  let st1 := (update acc.2 (dedupKeep p).id { tags := some (dedupMergedTags p) }).2
  let res := delete st1 (dedupDelete p).id
  (acc.1 + (if res.1 then 1 else 0), res.2)

/-- The `deduplicate` method: fold the deletion step over the duplicate pairs
found on the initial state, returning the number of rows actually deleted. -/
def deduplicate (st : StoreState) (threshold : ℚ) : ℕ × StoreState :=
  (findDuplicates st threshold).foldl dedupStep (0, st)

/-! The JSON codec used by `saveState` / `loadState` (`JSON.stringify` /
`JSON.parse`).  Numbers are modelled as integers: every JavaScript number that
survives a stringify/parse cycle exactly is a binary float, and the spec-level
content of the round trip (nesting, arrays, objects, strings, escaping) is
captured on the integer slice without modelling float printing. -/

/-- A JSON-serializable value. -/
inductive Json where
  | null : Json
  | bool (b : Bool) : Json
  | num (n : ℤ) : Json
  | str (s : String) : Json
  | arr (elems : List Json) : Json
  | obj (fields : List (String × Json)) : Json

/-- An opening brace character, kept out of literals. -/
def lbrace : Char := Char.ofNat 123

/-- A closing brace character, kept out of literals. -/
def rbrace : Char := Char.ofNat 125

/-- Little-endian decimal digits of a positive number, with explicit fuel. -/
def natDigitsAux : ℕ → ℕ → List ℕ
  | _, 0 => []
  | 0, _ + 1 => []
  | f + 1, n + 1 => ((n + 1) % 10) :: natDigitsAux f ((n + 1) / 10)

/-- Big-endian decimal digits of a natural number (at least one digit). -/
def natDigitsBE (n : ℕ) : List ℕ :=
  if n = 0 then [0] else (natDigitsAux n n).reverse

/-- Little-endian digit-list value, for relating digits to their number. -/
def ofLE : List ℕ → ℕ
  | [] => 0
  | d :: ds => d + 10 * ofLE ds

/-- Decimal rendering of a natural number. -/
def natChars (n : ℕ) : List Char :=
  (natDigitsBE n).map Nat.digitChar

/-- A character list whose head, if any, is not a decimal digit — the inputs
after which a serialized number can be parsed back unambiguously. -/
def headNotDigit (cs : List Char) : Prop :=
  ∀ c, cs.head? = some c → c.isDigit = false

/-- Decimal rendering of an integer. -/
def intChars (i : ℤ) : List Char :=
  if i < 0 then '-' :: natChars i.natAbs else natChars i.toNat

/-- The rendering of the literal `null`. -/
def nullChars : List Char := ['n', 'u', 'l', 'l']

/-- The rendering of the literal `true`. -/
def trueChars : List Char := ['t', 'r', 'u', 'e']

/-- The rendering of the literal `false`. -/
def falseChars : List Char := ['f', 'a', 'l', 's', 'e']

mutual

/-- Serialize a JSON value exactly as `JSON.stringify` (no whitespace). -/
def serJson : Json → List Char
  | .null => nullChars
  | .bool true => trueChars
  | .bool false => falseChars
  | .num n => intChars n
  | .str s => encodeStr s.data
  | .arr es => '[' :: serElems es ++ [']']
  | .obj fs => lbrace :: serFields fs ++ [rbrace]

/-- Serialize array elements, comma separated. -/
def serElems : List Json → List Char
  | [] => []
  | [v] => serJson v
  | v :: vs => serJson v ++ ',' :: serElems vs

/-- Serialize object fields, comma separated. -/
def serFields : List (String × Json) → List Char
  | [] => []
  | [(k, v)] => encodeStr k.data ++ ':' :: serJson v
  | (k, v) :: fs => encodeStr k.data ++ ':' :: serJson v ++ ',' :: serFields fs

end

mutual

/-- Fuel adequate for parsing back a serialized value. -/
def jsize : Json → ℕ
  | .null => 1
  | .arr es => 1 + jsizeElems es
  | .bool _ => 1
  | .num _ => 1
  | .obj fs => 1 + jsizeFields fs
  | .str _ => 1

/-- Fuel adequate for parsing back serialized array elements. -/
def jsizeElems : List Json → ℕ
  | [] => 0
  | v :: vs => 1 + jsize v + jsizeElems vs

/-- Fuel adequate for parsing back serialized object fields. -/
def jsizeFields : List (String × Json) → ℕ
  | [] => 0
  | (_, v) :: fs => 1 + jsize v + jsizeFields fs

end

/-- Value of one hexadecimal digit character. -/
def parseHex (c : Char) : Option ℕ :=
  if '0' ≤ c ∧ c ≤ '9' then some (c.toNat - 48)
  else if 'a' ≤ c ∧ c ≤ 'f' then some (c.toNat - 87)
  else if 'A' ≤ c ∧ c ≤ 'F' then some (c.toNat - 55)
  else none

/-- Resolve a single-character JSON escape. -/
def unescapeChar (c : Char) : Option Char :=
  if c = '"' then some '"'
  else if c = '\\' then some '\\'
  else if c = '/' then some '/'
  else if c = 'n' then some (Char.ofNat 10)
  else if c = 'r' then some (Char.ofNat 13)
  else if c = 't' then some (Char.ofNat 9)
  else if c = 'b' then some (Char.ofNat 8)
  else if c = 'f' then some (Char.ofNat 12)
  else none

/-- Parse a string-literal body up to the closing quote. -/
def parseStrBody : List Char → Option (List Char × List Char)
  | [] => none
  | '\\' :: 'u' :: h1 :: h2 :: h3 :: h4 :: rest => do
      let a ← parseHex h1
      let b ← parseHex h2
      let c3 ← parseHex h3
      let d ← parseHex h4
      let (s, r) ← parseStrBody rest
      pure (Char.ofNat (a * 4096 + b * 256 + c3 * 16 + d) :: s, r)
  | '\\' :: e :: rest => do
      let ec ← unescapeChar e
      let (s, r) ← parseStrBody rest
      pure (ec :: s, r)
  | '"' :: rest => some ([], rest)
  | c :: rest => do
      let (s, r) ← parseStrBody rest
      pure (c :: s, r)

/-- Consume a maximal run of decimal digit characters. -/
def takeDigits : List Char → List ℕ × List Char
  | [] => ([], [])
  | c :: cs =>
      if c.isDigit then
        let r := takeDigits cs
        ((c.toNat - 48) :: r.1, r.2)
      else ([], c :: cs)

/-- Value of a big-endian digit list. -/
def valOfDigits (ds : List ℕ) : ℕ :=
  ds.foldl (fun a d => a * 10 + d) 0

/-- Parse an optionally signed decimal integer. -/
def parseIntChars (cs : List Char) : Option (ℤ × List Char) :=
  match cs with
  | [] => none
  | c :: rest =>
      if c = '-' then
        match takeDigits rest with
        | ([], _) => none
        | (ds, r) => some (-(valOfDigits ds : ℤ), r)
      else
        match takeDigits (c :: rest) with
        | ([], _) => none
        | (ds, r) => some ((valOfDigits ds : ℤ), r)

/-- Match an exact literal tail, returning the remaining input. -/
def dropLit : List Char → List Char → Option (List Char)
  | [], cs => some cs
  | p :: ps, c :: cs => if c = p then dropLit ps cs else none
  | _ :: _, [] => none

mutual

/-- Parse one JSON value from the front of the input. -/
def parseVal : ℕ → List Char → Option (Json × List Char)
  | 0, _ => none
  | f + 1, cs =>
      match cs with
      | [] => none
      | c :: rest =>
          if c = 'n' then (dropLit ['u', 'l', 'l'] rest).map (fun r => (.null, r))
          else if c = 't' then (dropLit ['r', 'u', 'e'] rest).map (fun r => (.bool true, r))
          else if c = 'f' then (dropLit ['a', 'l', 's', 'e'] rest).map (fun r => (.bool false, r))
          else if c = '"' then (parseStrBody rest).map (fun p => (.str (String.mk p.1), p.2))
          else if c = '[' then
            match rest with
            | [] => none
            | c2 :: rest' =>
                if c2 = ']' then some (.arr [], rest')
                else (parseElems f (c2 :: rest')).map (fun p => (.arr p.1, p.2))
          else if c = lbrace then
            match rest with
            | [] => none
            | c2 :: rest' =>
                if c2 = rbrace then some (.obj [], rest')
                else (parseFields f (c2 :: rest')).map (fun p => (.obj p.1, p.2))
          else (parseIntChars (c :: rest)).map (fun p => (.num p.1, p.2))

/-- Parse comma-separated array elements up to the closing bracket. -/
def parseElems : ℕ → List Char → Option (List Json × List Char)
  | 0, _ => none
  | f + 1, cs => do
      let (v, r) ← parseVal f cs
      match r with
      | [] => none
      | c :: r' =>
          if c = ',' then do
            let (es, r'') ← parseElems f r'
            pure (v :: es, r'')
          else if c = ']' then pure ([v], r')
          else none

/-- Parse comma-separated object fields up to the closing brace. -/
def parseFields : ℕ → List Char → Option (List (String × Json) × List Char)
  | 0, _ => none
  | f + 1, cs =>
      match cs with
      | [] => none
      | c :: rest =>
          if c = '"' then do
            let (k, r1) ← parseStrBody rest
            match r1 with
            | [] => none
            | c1 :: r2 =>
                if c1 = ':' then do
                  let (v, r3) ← parseVal f r2
                  match r3 with
                  | [] => none
                  | c2 :: r4 =>
                      if c2 = ',' then do
                        let (fs, r5) ← parseFields f r4
                        pure ((String.mk k, v) :: fs, r5)
                      else if c2 = rbrace then pure ([(String.mk k, v)], r4)
                      else none
                else none
          else none

end

/-- Parse a complete JSON document (`JSON.parse`): one value, no trailing
input. -/
def parseJson (cs : List Char) : Option Json :=
  match parseVal cs.length cs with
  | some (v, []) => some v
  | _ => none

/-- The `saveState` method: `INSERT OR REPLACE` of the serialized value. -/
def saveState (st : StoreState) (key : String) (v : Json) (now : ℤ) :
    StoreState :=
  { st with stateRows :=
      ⟨key, serJson v, now⟩ :: st.stateRows.filter (fun r => !(r.key == key)) }

/-- The `loadState` method: absent key gives `none`; otherwise the stored text
is parsed back. -/
def loadState (st : StoreState) (key : String) : Option Json :=
  match st.stateRows.find? (fun r => r.key == key) with
  | none => none
  | some r => parseJson r.value

/-- Every persisted record has in-range importance and emotional weight. -/
def validRanges (st : StoreState) : Prop :=
  ∀ m ∈ st.memories,
    1 ≤ m.importance ∧ m.importance ≤ 10 ∧
      -5 ≤ m.emotional_weight ∧ m.emotional_weight ≤ 5

/-- Concrete two-row store for the decay witness: a stale unimportant fact
and a stale unimportant milestone. -/
def decayW : StoreState :=
  ⟨[⟨"f", .fact, "old", none, 2, 0, 0, 0, 1, [], none, none⟩,
    ⟨"m", .milestone, "old", none, 2, 0, 0, 0, 1, [], none, none⟩], []⟩

/-- Concrete one-row store for the C2 counterexample: a record whose content
matches the keyword `programming`. -/
def kwW : StoreState :=
  ⟨[⟨"a", .fact, "User loves programming", none, 5, 0, 0, 0, 1, [], none, none⟩], []⟩

/-- Repeatedly call `get` on one id, recording the `access_count` each call
returns (the claim C3 observation sequence). -/
def observeReads : ℕ → StoreState → String → ℤ → List (Option ℕ) × StoreState
  | 0, st, _, _ => ([], st)
  | n + 1, st, id, now =>
      let r := get st id now
      let rest := observeReads n r.2 id now
      ((r.1.map (fun m => m.access_count)) :: rest.1, rest.2)

/-! Theorems. -/

/-- Rounding is monotone. -/
theorem jround_mono : Monotone jround := by
  intro a b h
  exact Int.floor_le_floor (by linarith)

/-- Rounding an integer returns it. -/
theorem jround_intCast (n : ℤ) : jround ((n : ℚ)) = n := by
  unfold jround
  rw [Int.floor_int_add]
  norm_num

/-- Clamping to integer bounds commutes with rounding. -/
theorem clamp_jround (lo hi : ℤ) (q : ℚ) :
    max lo (min hi (jround q)) = jround (max (lo : ℚ) (min (hi : ℚ) q)) := by
  rw [jround_mono.map_max, jround_mono.map_min, jround_intCast, jround_intCast]

/-- C7: the record returned by `create` has
`importance = round (clamp input 1 10)` (exactly 5 on `NaN` input) and
`emotionalWeight = round (clamp input (-5) 5)` (exactly 0 on `NaN` input). -/
theorem create_validates_importance (st : StoreState) (d : MemoryDraft)
    (newId : String) (now : ℤ) :
    ((store st d newId now).1.importance =
      match d.importance with
      | none => 5
      | some q => ((jround (max 1 (min 10 q)) : ℤ) : ℚ)) ∧
    ((store st d newId now).1.emotional_weight =
      match d.emotional_weight with
      | none => 0
      | some q => ((jround (max (-5) (min 5 q)) : ℤ) : ℚ)) := by
  constructor
  · show validateImportance d.importance = _
    match d.importance with
    | none => rfl
    | some q =>
        show ((max 1 (min 10 (jround q)) : ℤ) : ℚ) = _
        rw [clamp_jround]
        push_cast
        rfl
  · show validateEmotionalWeight d.emotional_weight = _
    match d.emotional_weight with
    | none => rfl
    | some q =>
        show ((max (-5) (min 5 (jround q)) : ℤ) : ℚ) = _
        rw [clamp_jround]
        push_cast
        rfl

/-- Witness for C7 at concrete inputs: importance 27/2 clamps to 10,
`NaN` emotional weight defaults to 0. -/
theorem create_validates_importance_witness :
    (store ⟨[], []⟩ ⟨.fact, "x", none, some (27/2), none, [], none⟩ "a" 0).1.importance = 10 ∧
    (store ⟨[], []⟩ ⟨.fact, "x", none, some (27/2), none, [], none⟩ "a" 0).1.emotional_weight = 0 := by
  have h := create_validates_importance ⟨[], []⟩
    ⟨.fact, "x", none, some (27/2), none, [], none⟩ "a" 0
  refine ⟨h.1.trans ?_, h.2.trans ?_⟩
  · show ((jround ((1 : ℚ) ⊔ 10 ⊓ (27/2)) : ℤ) : ℚ) = 10
    rw [show (1 : ℚ) ⊔ 10 ⊓ (27/2) = 10 by norm_num,
      show jround 10 = 10 by norm_num [jround]]
    norm_num
  · rfl

/-- C6: with no embedding provider configured, `findRelevantSemantic` is
`findRelevant` on the same store state (same results, same final state). -/
theorem findRelevantSemantic_none (st : StoreState) (text : String)
    (limit : ℕ) (now : ℤ) :
    findRelevantSemantic none st text limit now = findRelevant st text limit now := rfl

/-- Unfolding of the decay deletion condition. -/
theorem decayCond_iff (now daysOld : ℤ) (maxImportance : ℚ) (m : Memory) :
    decayCond now daysOld maxImportance m = true ↔
      (m.last_accessed < now - daysOld * msPerDay ∧ m.importance ≤ maxImportance ∧
        m.type ≠ MemoryType.milestone ∧ m.type ≠ MemoryType.request) := by
  simp [decayCond, and_assoc]

/-- C4: `decay` deletes exactly the records that are older than
`now - maxAgeDays`, of importance at most `maxImportance`, and of a type
other than `milestone` / `request`; protected types always survive; the
count of removed rows is returned. -/
theorem decay_spec (st : StoreState) (now daysOld : ℤ) (maxImportance : ℚ) :
    (∀ m, m ∈ (decay st now daysOld maxImportance).2.memories ↔
      m ∈ st.memories ∧
        ¬(m.last_accessed < now - daysOld * msPerDay ∧ m.importance ≤ maxImportance ∧
          m.type ≠ MemoryType.milestone ∧ m.type ≠ MemoryType.request)) ∧
    (∀ m ∈ st.memories, (m.type = MemoryType.milestone ∨ m.type = MemoryType.request) →
      m ∈ (decay st now daysOld maxImportance).2.memories) ∧
    (decay st now daysOld maxImportance).1 +
      (decay st now daysOld maxImportance).2.memories.length = st.memories.length := by
  refine ⟨?_, ?_, ?_⟩
  · intro m
    simp only [decay, List.mem_filter]
    constructor
    · rintro ⟨hm, hc⟩
      refine ⟨hm, fun hP => ?_⟩
      rw [(decayCond_iff now daysOld maxImportance m).mpr hP] at hc
      simp at hc
    · rintro ⟨hm, hP⟩
      refine ⟨hm, ?_⟩
      cases hc : decayCond now daysOld maxImportance m with
      | true => exact absurd ((decayCond_iff now daysOld maxImportance m).mp hc) hP
      | false => simp
  · intro m hm hp
    simp only [decay, List.mem_filter]
    refine ⟨hm, ?_⟩
    have : decayCond now daysOld maxImportance m = false := by
      cases hc : decayCond now daysOld maxImportance m with
      | true =>
          have := (decayCond_iff now daysOld maxImportance m).mp hc
          rcases hp with h | h
          · exact absurd h this.2.2.1
          · exact absurd h this.2.2.2
      | false => rfl
    simp [this]
  · simp only [decay]
    have := List.length_eq_length_filter_add (l := st.memories)
      (decayCond now daysOld maxImportance)
    simpa using this.symm

/-- Helper: relate a list to its map by a pointwise relation. -/
theorem forall₂_map_self {α β : Type} (r : α → β → Prop) (f : α → β)
    (l : List α) (h : ∀ x ∈ l, r x (f x)) : List.Forall₂ r l (l.map f) := by
  induction l with
  | nil => exact List.Forall₂.nil
  | cons x xs ih =>
      exact List.Forall₂.cons (h x (by simp)) (ih (fun y hy => h y (by simp [hy])))

/-- C10: `update` touches nothing it should not: row count is preserved, each
row keeps its `id`, `type`, `created_at`, `last_accessed`, `access_count`,
`related_user` and `embedding` (update is not a touch), rows with another id
are wholly unchanged, and fields not named in the partial keep their values. -/
theorem update_frame (st : StoreState) (id : String) (u : MemoryUpdate) :
    ((update st id u).2.memories.length = st.memories.length) ∧
    List.Forall₂ (fun m m' =>
        m'.id = m.id ∧ m'.type = m.type ∧ m'.created_at = m.created_at ∧
        m'.last_accessed = m.last_accessed ∧ m'.access_count = m.access_count ∧
        m'.related_user = m.related_user ∧ m'.embedding = m.embedding ∧
        (m.id ≠ id → m' = m) ∧
        (u.content = none → m'.content = m.content) ∧
        (u.context = none → m'.context = m.context) ∧
        (u.importance = none → m'.importance = m.importance) ∧
        (u.emotional_weight = none → m'.emotional_weight = m.emotional_weight) ∧
        (u.tags = none → m'.tags = m.tags))
      st.memories (update st id u).2.memories := by
  have hrel : ∀ (m : Memory),
      (fun m m' =>
        m'.id = m.id ∧ m'.type = m.type ∧ m'.created_at = m.created_at ∧
        m'.last_accessed = m.last_accessed ∧ m'.access_count = m.access_count ∧
        m'.related_user = m.related_user ∧ m'.embedding = m.embedding ∧
        (m.id ≠ id → m' = m) ∧
        (u.content = none → m'.content = m.content) ∧
        (u.context = none → m'.context = m.context) ∧
        (u.importance = none → m'.importance = m.importance) ∧
        (u.emotional_weight = none → m'.emotional_weight = m.emotional_weight) ∧
        (u.tags = none → m'.tags = m.tags)) m
        (if m.id == id then applyUpdates u m else m) := by
    intro m
    by_cases hid : m.id = id
    · rw [if_pos (show (m.id == id) = true by simp [hid])]
      refine ⟨rfl, rfl, rfl, rfl, rfl, rfl, rfl, fun h => absurd hid h,
        ?_, ?_, ?_, ?_, ?_⟩ <;> intro h <;> simp [applyUpdates, h]
    · rw [if_neg (show ¬ (m.id == id) = true by simp [hid])]
      exact ⟨rfl, rfl, rfl, rfl, rfl, rfl, rfl, fun _ => rfl,
        fun _ => rfl, fun _ => rfl, fun _ => rfl, fun _ => rfl, fun _ => rfl⟩
  rw [update]
  by_cases hf : u.hasField = true
  · rw [if_neg (by simp [hf])]
    exact ⟨by simp, forall₂_map_self _ _ _ (fun m _ => hrel m)⟩
  · rw [if_pos hf]
    refine ⟨rfl, ?_⟩
    rw [List.forall₂_same]
    intro m _
    exact ⟨rfl, rfl, rfl, rfl, rfl, rfl, rfl, fun _ => rfl,
      fun _ => rfl, fun _ => rfl, fun _ => rfl, fun _ => rfl, fun _ => rfl⟩

/-- Witness for C10: a concrete one-field update on a one-row store keeps the
non-provided fields and the access counters intact. -/
theorem update_frame_witness :
    (update ⟨[⟨"a", .fact, "c", none, 5, 0, 3, 3, 1, ["t"], none, none⟩], []⟩
        "a" { content := some "d" }).2.memories.length = 1 ∧
    List.Forall₂ (fun m m' => m'.access_count = m.access_count ∧ m'.tags = m.tags)
      [(⟨"a", .fact, "c", none, 5, 0, 3, 3, 1, ["t"], none, none⟩ : Memory)]
      (update ⟨[⟨"a", .fact, "c", none, 5, 0, 3, 3, 1, ["t"], none, none⟩], []⟩
        "a" { content := some "d" }).2.memories := by
  have h := update_frame ⟨[⟨"a", .fact, "c", none, 5, 0, 3, 3, 1, ["t"], none, none⟩], []⟩
    "a" { content := some "d" }
  refine ⟨h.1, ?_⟩
  exact h.2.imp (fun a b hab => ⟨hab.2.2.2.2.1, hab.2.2.2.2.2.2.2.2.2.2.2.2 rfl⟩)

/-- Rows created by `create` / `createWithEmbedding` have clamped fields. -/
theorem validate_mem_ranges (v : JSNum) :
    1 ≤ validateImportance v ∧ validateImportance v ≤ 10 ∧
      -5 ≤ validateEmotionalWeight v ∧ validateEmotionalWeight v ≤ 5 := by
  cases v with
  | none =>
      refine ⟨?_, ?_, ?_, ?_⟩ <;> norm_num [validateImportance, validateEmotionalWeight]
  | some q =>
      simp only [validateImportance, validateEmotionalWeight]
      refine ⟨?_, ?_, ?_, ?_⟩
      · exact_mod_cast le_max_left 1 (min 10 (jround q))
      · exact_mod_cast max_le (by norm_num) (min_le_left 10 (jround q))
      · exact_mod_cast le_max_left (-5) (min 5 (jround q))
      · exact_mod_cast max_le (by decide) (min_le_left 5 (jround q))


/-- Counterexample to C1 as stated: after a create followed by an update that
provides `importance := 99`, a persisted record carries importance 99,
outside `[1, 10]` — `update` does not apply the clamping rules. -/
theorem update_no_clamping_counterexample :
    ∃ m ∈ (update
        (store ⟨[], []⟩ ⟨.fact, "x", none, none, none, [], none⟩ "a" 0).2
        "a" { importance := some 99 }).2.memories,
      m.importance = 99 ∧ ¬ m.importance ≤ 10 := by
  refine ⟨⟨"a", .fact, "x", none, 99, 0, 0, 0, 1, [], none, none⟩, ?_, rfl, by norm_num⟩
  decide

/-- C1 amended: creation (with or without embedding) clamps importance to
`[1, 10]` and emotional weight to `[-5, 5]` and so preserves the store-wide
range invariant, but `update` writes any provided importance / emotional
weight verbatim, so the invariant is only preserved by updates whose provided
values are themselves in range. -/
theorem ranges_create_only (st : StoreState) (d : MemoryDraft) (newId : String)
    (now : ℤ) (gen : Option (String → Option (List ℚ))) (id : String)
    (u : MemoryUpdate) :
    (validRanges st → validRanges (store st d newId now).2) ∧
    (validRanges st → validRanges (storeWithEmbedding gen st d newId now).2) ∧
    (∀ m ∈ (update st id u).2.memories, m.id = id →
      (∀ q, u.importance = some q → m.importance = q) ∧
      (∀ q, u.emotional_weight = some q → m.emotional_weight = q)) ∧
    (validRanges st →
      (∀ q, u.importance = some q → 1 ≤ q ∧ q ≤ 10) →
      (∀ q, u.emotional_weight = some q → -5 ≤ q ∧ q ≤ 5) →
      validRanges (update st id u).2) := by
  refine ⟨?_, ?_, ?_, ?_⟩
  · intro hv m hm
    rcases List.mem_append.mp hm with h | h
    · exact hv m h
    · rcases List.mem_singleton.mp h with rfl
      have h1 := validate_mem_ranges d.importance
      have h2 := validate_mem_ranges d.emotional_weight
      exact ⟨h1.1, h1.2.1, h2.2.2.1, h2.2.2.2⟩
  · intro hv m hm
    rcases List.mem_append.mp hm with h | h
    · exact hv m h
    · rcases List.mem_singleton.mp h with rfl
      have h1 := validate_mem_ranges d.importance
      have h2 := validate_mem_ranges d.emotional_weight
      exact ⟨h1.1, h1.2.1, h2.2.2.1, h2.2.2.2⟩
  · intro m hm hid
    rw [update] at hm
    by_cases hf : u.hasField
    · simp only [hf, not_true, reduceIte] at hm
      rcases List.mem_map.mp hm with ⟨m0, _, hm0⟩
      by_cases h0 : m0.id = id
      · rw [if_pos (by simp [h0])] at hm0
        subst hm0
        constructor <;> intro q hq <;> simp [applyUpdates, hq]
      · rw [if_neg (by simp [h0])] at hm0
        subst hm0
        exact absurd hid h0
    · constructor <;> intro q hq <;>
        exact absurd (by simp [MemoryUpdate.hasField, hq]) hf
  · intro hv himp hew m hm
    rw [update] at hm
    by_cases hf : u.hasField
    · simp only [hf, not_true, reduceIte] at hm
      rcases List.mem_map.mp hm with ⟨m0, hm0mem, hm0⟩
      by_cases h0 : m0.id = id
      · rw [if_pos (by simp [h0])] at hm0
        subst hm0
        have hv0 := hv m0 hm0mem
        refine ⟨?_, ?_, ?_, ?_⟩ <;>
          simp only [applyUpdates] <;>
          rcases hu : u.importance with _ | q <;>
          rcases hw : u.emotional_weight with _ | w <;>
          simp only [Option.getD_some, Option.getD_none] <;>
          first
            | exact hv0.1
            | exact hv0.2.1
            | exact hv0.2.2.1
            | exact hv0.2.2.2
            | exact (himp _ hu).1
            | exact (himp _ hu).2
            | exact (hew _ hw).1
            | exact (hew _ hw).2
      · rw [if_neg (by simp [h0])] at hm0
        subst hm0
        exact hv m0 hm0mem
    · simp only [hf, not_false_iff, if_pos] at hm
      exact hv m hm

/-- Witness for C1 (amended) at concrete inputs: creating into an empty store
preserves the invariant, and an in-range update keeps it. -/
theorem ranges_create_only_witness :
    validRanges (store ⟨[], []⟩ ⟨.fact, "x", none, none, none, [], none⟩ "a" 0).2 ∧
    validRanges (update
      (store ⟨[], []⟩ ⟨.fact, "x", none, none, none, [], none⟩ "a" 0).2
      "a" { importance := some 7 }).2 := by
  have hempty : validRanges ⟨[], []⟩ := by
    intro m hm
    simp at hm
  have h1 := (ranges_create_only ⟨[], []⟩ ⟨.fact, "x", none, none, none, [], none⟩
    "a" 0 none "a" { importance := some 7 }).1 hempty
  refine ⟨h1, ?_⟩
  exact (ranges_create_only
      (store ⟨[], []⟩ ⟨.fact, "x", none, none, none, [], none⟩ "a" 0).2
      ⟨.fact, "x", none, none, none, [], none⟩ "a" 0 none "a"
      { importance := some 7 }).2.2.2 h1
    (fun q hq => by cases hq; norm_num)
    (fun q hq => by cases hq)


/-- Witness for C4 at a concrete store: an old unimportant fact is removed,
an equally old unimportant milestone survives, and the count is 1. -/
theorem decay_spec_witness :
    (∀ m ∈ decayW.memories, (m.type = MemoryType.milestone ∨ m.type = MemoryType.request) →
      m ∈ (decay decayW (3 * msPerDay) 1 3).2.memories) ∧
    (decay decayW (3 * msPerDay) 1 3).1 = 1 := by
  constructor
  · exact (decay_spec decayW (3 * msPerDay) 1 3).2.1
  · decide

/-- Membership is preserved by sorted insertion. -/
theorem mem_insertBy {α : Type} (le : α → α → Bool) (x y : α) (l : List α) :
    y ∈ insertBy le x l ↔ y = x ∨ y ∈ l := by
  induction l with
  | nil => simp [insertBy]
  | cons z zs ih =>
      rw [insertBy]
      by_cases h : le x z = true
      · rw [if_pos h]
        simp only [List.mem_cons]
      · rw [if_neg h]
        simp only [List.mem_cons, ih]
        tauto

/-- Membership is preserved by sorting. -/
theorem mem_sortBy {α : Type} (le : α → α → Bool) (y : α) (l : List α) :
    y ∈ sortBy le l ↔ y ∈ l := by
  induction l with
  | nil => simp [sortBy]
  | cons z zs ih =>
      rw [sortBy, mem_insertBy]
      simp [ih]


/-- Counterexample to C2 as stated: `findRelevant` on a query with a
surviving token returns a matching record yet leaves the store unchanged —
the returned record's `access_count` stays 1 and `last_accessed` stays 0
instead of being touched. -/
theorem findRelevant_touch_counterexample :
    normWords 3 "programming" ≠ [] ∧
    (findRelevant kwW "programming" 5 99).1 ≠ [] ∧
    (findRelevant kwW "programming" 5 99).2 = kwW := by
  refine ⟨by decide, by decide, by decide⟩

/-- C2 amended: the keyword path of `findRelevant` performs no touch at all
(the store is returned unchanged); only the no-surviving-token fallback,
which delegates to `query {minImportance := 6, limit}`, touches — `query`
being the operation that touches every record it returns. -/
theorem findRelevant_no_touch (st : StoreState) (text : String) (limit : ℕ)
    (now : ℤ) :
    (normWords 3 text ≠ [] → (findRelevant st text limit now).2 = st) ∧
    (normWords 3 text = [] →
      findRelevant st text limit now =
        query st { minImportance := some 6, limit := some limit } now) ∧
    (∀ q r, r ∈ (query st q now).1 →
      touch now r ∈ (query st q now).2.memories) := by
  refine ⟨?_, ?_, ?_⟩
  · intro h
    rw [findRelevant, if_neg h]
  · intro h
    rw [findRelevant, if_pos h]
  · intro q r hr
    have hmem : r ∈ st.memories := by
      have h1 : r ∈ sortBy memOrder (st.memories.filter (queryCond q)) := by
        rcases hlim : q.limit with _ | n
        · rw [query] at hr
          simpa [hlim] using hr
        · rw [query] at hr
          by_cases hn : n = 0
          · simpa [hlim, hn] using hr
          · have := hr
            simp only [hlim, hn, if_neg, reduceIte] at this
            exact List.mem_of_mem_take this
      exact (List.mem_filter.mp ((mem_sortBy _ _ _).mp h1)).1
    have hid : r ∈ (query st q now).1 := hr
    rw [query]
    refine List.mem_map.mpr ⟨r, hmem, ?_⟩
    rw [if_pos]
    have : r.id ∈ ((query st q now).1.map (fun m => m.id)) :=
      List.mem_map_of_mem _ hr
    rw [query] at this
    exact List.elem_eq_true_of_mem this

/-- Witness for C2 (amended) at concrete inputs: a keyword query leaves the
one-row store untouched, and an empty-token query delegates to `query`. -/
theorem findRelevant_no_touch_witness :
    (findRelevant kwW "loves" 5 99).2 = kwW ∧
    findRelevant kwW "x y" 5 99 =
      query kwW { minImportance := some 6, limit := some 5 } 99 := by
  refine ⟨(findRelevant_no_touch kwW "loves" 5 99).1 (by decide),
    (findRelevant_no_touch kwW "x y" 5 99).2.1 (by decide)⟩

/-- One `get` on a state whose rows with the id all carry count `c`: the call
returns the pre-touch count `c`, and afterwards every row with the id carries
`c + 1` and the refreshed `last_accessed`. -/
theorem get_step (st : StoreState) (id : String) (now : ℤ) (c : ℕ)
    (hex : ∃ m ∈ st.memories, m.id = id)
    (hall : ∀ m ∈ st.memories, m.id = id → m.access_count = c) :
    ((get st id now).1.map (fun m => m.access_count) = some c) ∧
    (∃ m ∈ (get st id now).2.memories, m.id = id) ∧
    (∀ m ∈ (get st id now).2.memories, m.id = id →
      m.access_count = c + 1 ∧ m.last_accessed = now) := by
  have hfind : (st.memories.find? (fun m => m.id == id)).isSome := by
    rw [List.find?_isSome]
    obtain ⟨m0, hm0, hid0⟩ := hex
    exact ⟨m0, hm0, by simp [hid0]⟩
  obtain ⟨r, hr⟩ := Option.isSome_iff_exists.mp hfind
  have hrid : r.id = id := by
    have := List.find?_some hr
    simpa using this
  have hrmem : r ∈ st.memories := List.mem_of_find?_eq_some hr
  rw [get, hr]
  refine ⟨by simp [hall r hrmem hrid], ?_, ?_⟩
  · refine ⟨touch now r, List.mem_map.mpr ⟨r, hrmem, ?_⟩, by simp [touch, hrid]⟩
    rw [if_pos (by simp [hrid])]
  · intro m hm hid
    rcases List.mem_map.mp hm with ⟨m1, hm1, hm1e⟩
    by_cases h1 : m1.id = id
    · rw [if_pos (by simp [h1])] at hm1e
      subst hm1e
      exact ⟨by simp [touch, hall m1 hm1 h1], by simp [touch]⟩
    · rw [if_neg (by simp [h1])] at hm1e
      subst hm1e
      exact absurd hid h1

/-- The observation sequence of `n` reads starting from uniform count `c` is
`c, c+1, ..., c+n-1`, leaving the stored count at `c + n`. -/
theorem observeReads_spec (n : ℕ) : ∀ (st : StoreState) (id : String)
    (now : ℤ) (c : ℕ),
    (∃ m ∈ st.memories, m.id = id) →
    (∀ m ∈ st.memories, m.id = id → m.access_count = c) →
    ((observeReads n st id now).1 = (List.range n).map (fun k => some (c + k))) ∧
    (∃ m ∈ (observeReads n st id now).2.memories, m.id = id) ∧
    (∀ m ∈ (observeReads n st id now).2.memories, m.id = id →
      m.access_count = c + n) := by
  induction n with
  | zero =>
      intro st id now c hex hall
      exact ⟨by simp [observeReads], by simpa [observeReads] using hex,
        by simpa [observeReads] using hall⟩
  | succ k ih =>
      intro st id now c hex hall
      have hstep := get_step st id now c hex hall
      have ihr := ih (get st id now).2 id now (c + 1) hstep.2.1
        (fun m hm hid => (hstep.2.2 m hm hid).1)
      rw [observeReads]
      refine ⟨?_, ihr.2.1.imp (fun m h => h), ?_⟩
      · show ((get st id now).1.map (fun m => m.access_count)) ::
          (observeReads k (get st id now).2 id now).1 = _
        rw [hstep.1, ihr.1, List.range_succ_eq_map]
        simp only [List.map_cons, List.map_map, Nat.add_zero]
        refine congrArg _ ?_
        refine List.map_congr_left (fun j _ => ?_)
        simp [Function.comp]
        omega
      · intro m hm hid
        have := ihr.2.2 m hm hid
        omega

/-- C3: reading a freshly created record `N` times observes the access-count
sequence `1, 2, ..., N` (each read returns the value as it existed before
that read's own increment), leaves the stored count at `N + 1`, and a single
read both increments the stored count and refreshes `last_accessed` while
returning the pre-update value. -/
theorem read_sequence (st : StoreState) (d : MemoryDraft) (newId : String)
    (now now2 : ℤ) (N : ℕ)
    (hfresh : ∀ m ∈ st.memories, m.id ≠ newId) :
    ((observeReads N (store st d newId now).2 newId now2).1 =
      (List.range N).map (fun k => some (k + 1))) ∧
    (∀ m ∈ (observeReads N (store st d newId now).2 newId now2).2.memories,
      m.id = newId → m.access_count = N + 1) ∧
    ((get (store st d newId now).2 newId now2).1.map (fun m => m.access_count) =
      some 1) ∧
    (∀ m ∈ (get (store st d newId now).2 newId now2).2.memories,
      m.id = newId → m.access_count = 2 ∧ m.last_accessed = now2) := by
  have hex : ∃ m ∈ (store st d newId now).2.memories, m.id = newId := by
    refine ⟨(store st d newId now).1, ?_, rfl⟩
    simp [store]
  have hall : ∀ m ∈ (store st d newId now).2.memories, m.id = newId →
      m.access_count = 1 := by
    intro m hm hid
    simp only [store, List.mem_append, List.mem_singleton] at hm
    rcases hm with h | h
    · exact absurd hid (hfresh m h)
    · rw [h]
  have hobs := observeReads_spec N (store st d newId now).2 newId now2 1 hex hall
  have hget := get_step (store st d newId now).2 newId now2 1 hex hall
  refine ⟨?_, ?_, hget.1, hget.2.2⟩
  · rw [hobs.1]
    exact List.map_congr_left (fun k _ => by rw [Nat.add_comm])
  · intro m hm hid
    have := hobs.2.2 m hm hid
    omega

/-- Witness for C3 at a concrete store: three reads of a freshly created
record observe 1, 2, 3. -/
theorem read_sequence_witness :
    (observeReads 3
        (store ⟨[], []⟩ ⟨.fact, "x", none, none, none, [], none⟩ "a" 0).2
        "a" 5).1 = [some 1, some 2, some 3] := by
  have h := (read_sequence ⟨[], []⟩ ⟨.fact, "x", none, none, none, [], none⟩
    "a" 0 5 3 (by simp)).1
  rw [h]
  decide

/-- JavaScript-`Set` deduplication keeps exactly the members of the input. -/
theorem mem_firstDedup (l : List String) (y : String) :
    y ∈ firstDedup l ↔ y ∈ l := by
  match l with
  | [] => simp [firstDedup]
  | x :: xs =>
      rw [firstDedup]
      have hsub := mem_firstDedup (xs.filter (fun z => !(z == x))) y
      by_cases hyx : y = x
      · simp [hyx]
      · simp only [List.mem_cons, hyx, false_or, hsub, List.mem_filter,
          Bool.not_eq_true', beq_eq_false_iff_ne, ne_eq, hyx, not_false_iff,
          and_true]
termination_by l.length
decreasing_by
  have := List.length_filter_le (fun z => !(z == x)) xs
  simp only [List.length_cons]
  omega

/-- JavaScript-`Set` deduplication produces no duplicates. -/
theorem firstDedup_nodup (l : List String) : (firstDedup l).Nodup := by
  match l with
  | [] => simp [firstDedup]
  | x :: xs =>
      rw [firstDedup]
      refine List.nodup_cons.mpr ⟨?_, firstDedup_nodup _⟩
      rw [mem_firstDedup]
      simp
termination_by l.length
decreasing_by
  all_goals
    have := List.length_filter_le (fun z => !(z == x)) xs
    simp only [List.length_cons]
    omega

/-- With unique ids, `delete` removes one row exactly when it reports true. -/
theorem delete_length (l : List Memory) (id : String)
    (hnd : (l.map (fun m => m.id)).Nodup) :
    (l.filter (fun m => !(m.id == id))).length +
      (if l.any (fun m => m.id == id) then 1 else 0) = l.length := by
  induction l with
  | nil => simp
  | cons m ms ih =>
      simp only [List.map_cons, List.nodup_cons] at hnd
      by_cases h : m.id = id
      · have hms : ms.filter (fun x => !(x.id == id)) = ms := by
          refine List.filter_eq_self.mpr (fun x hx => ?_)
          have : x.id ≠ id := fun he => hnd.1 (by
            rw [← h] at he
            exact he ▸ List.mem_map_of_mem (fun m => m.id) hx)
          simp [this]
        simp [h, hms]
      · have hbeq : (m.id == id) = false := by simp [h]
        simp only [List.filter_cons, hbeq, Bool.not_false, if_true,
          List.any_cons, hbeq, Bool.false_or, List.length_cons]
        rw [← ih hnd.2]
        cases ms.any (fun x => x.id == id) <;> simp

/-- Deleting preserves uniqueness of ids. -/
theorem delete_nodup (l : List Memory) (id : String)
    (hnd : (l.map (fun m => m.id)).Nodup) :
    ((l.filter (fun m => !(m.id == id))).map (fun m => m.id)).Nodup :=
  ((l.filter_sublist).map (fun m => m.id)).nodup hnd

/-- Updating changes no row's id (hence preserves length and uniqueness). -/
theorem update_ids (st : StoreState) (id : String) (u : MemoryUpdate) :
    (update st id u).2.memories.map (fun m => m.id) =
      st.memories.map (fun m => m.id) := by
  rw [update]
  by_cases hf : u.hasField = true
  · rw [if_neg (by simp [hf])]
    simp only [List.map_map]
    refine List.map_congr_left (fun m _ => ?_)
    by_cases h : m.id = id
    · simp [h, applyUpdates]
    · simp [h]
  · rw [if_pos hf]

/-- One dedup step: the state part is an update followed by a delete, and the
counter grows exactly when the delete removed a row. -/
theorem dedupStep_state (acc : ℕ × StoreState) (p : Memory × Memory × ℚ) :
    (dedupStep acc p).2 =
      (delete (update acc.2 (dedupKeep p).id
          { tags := some (dedupMergedTags p) }).2 (dedupDelete p).id).2 ∧
    (dedupStep acc p).1 = acc.1 +
      (if (delete (update acc.2 (dedupKeep p).id
          { tags := some (dedupMergedTags p) }).2 (dedupDelete p).id).1
       then 1 else 0) := by
  constructor <;> rfl

/-- The dedup fold deletes one row per counted deletion: with unique ids the
final row count plus the returned counter recovers the initial row count. -/
theorem dedup_fold (ps : List (Memory × Memory × ℚ)) :
    ∀ (n0 : ℕ) (st0 : StoreState),
      (st0.memories.map (fun m => m.id)).Nodup →
      (ps.foldl dedupStep (n0, st0)).2.memories.length +
          (ps.foldl dedupStep (n0, st0)).1 =
        st0.memories.length + n0 := by
  induction ps with
  | nil => intro n0 st0 _; simp
  | cons p ps ih =>
      intro n0 st0 hnd
      rw [List.foldl_cons]
      have hstep := dedupStep_state (n0, st0) p
      set keepId := (dedupKeep p).id
      set delId := (dedupDelete p).id
      set u : MemoryUpdate := { tags := some (dedupMergedTags p) }
      have hnd1 : ((update st0 keepId u).2.memories.map (fun m => m.id)).Nodup := by
        rw [update_ids]; exact hnd
      have hlen1 : (update st0 keepId u).2.memories.length = st0.memories.length := by
        have := congrArg List.length (update_ids st0 keepId u)
        simpa using this
      have hnd2 : ((dedupStep (n0, st0) p).2.memories.map (fun m => m.id)).Nodup := by
        rw [hstep.1]
        exact delete_nodup _ _ hnd1
      have hlen2 : (dedupStep (n0, st0) p).2.memories.length +
          (if (delete (update st0 keepId u).2 delId).1 then 1 else 0) =
            st0.memories.length := by
        rw [hstep.1]
        calc (delete (update st0 keepId u).2 delId).2.memories.length +
              (if (delete (update st0 keepId u).2 delId).1 then 1 else 0)
            = (update st0 keepId u).2.memories.length :=
              delete_length (update st0 keepId u).2.memories delId hnd1
          _ = st0.memories.length := hlen1
      have hcount : (dedupStep (n0, st0) p).1 =
          n0 + (if (delete (update st0 keepId u).2 delId).1 then 1 else 0) :=
        hstep.2
      have := ih (dedupStep (n0, st0) p).1 (dedupStep (n0, st0) p).2 hnd2
      rw [show ps.foldl dedupStep (dedupStep (n0, st0) p) =
        ps.foldl dedupStep ((dedupStep (n0, st0) p).1, (dedupStep (n0, st0) p).2)
        from rfl] at this ⊢
      omega

/-- Inserting into a list sorted by creation time keeps it sorted. -/
theorem pairwise_insertBy (x : Memory) (l : List Memory)
    (h : l.Pairwise (fun a b => a.created_at ≤ b.created_at)) :
    (insertBy createdOrder x l).Pairwise
      (fun a b => a.created_at ≤ b.created_at) := by
  induction l with
  | nil => simp [insertBy]
  | cons y ys ih =>
      rw [insertBy]
      rcases List.pairwise_cons.mp h with ⟨hy, hys⟩
      by_cases hle : createdOrder x y = true
      · rw [if_pos hle]
        have hxy : x.created_at ≤ y.created_at := by
          simpa [createdOrder] using hle
        refine List.pairwise_cons.mpr ⟨?_, h⟩
        intro z hz
        rcases List.mem_cons.mp hz with rfl | hz'
        · exact hxy
        · exact le_trans hxy (hy z hz')
      · rw [if_neg hle]
        have hyx : y.created_at ≤ x.created_at := by
          have hnot : ¬ x.created_at ≤ y.created_at := by
            simpa [createdOrder] using hle
          omega
        refine List.pairwise_cons.mpr ⟨?_, ih hys⟩
        intro z hz
        rcases (mem_insertBy _ _ _ _).mp hz with rfl | hz'
        · exact hyx
        · exact hy z hz'

/-- Sorting by creation time yields a creation-time-sorted list. -/
theorem pairwise_sortBy (l : List Memory) :
    (sortBy createdOrder l).Pairwise (fun a b => a.created_at ≤ b.created_at) := by
  induction l with
  | nil => simp [sortBy]
  | cons x xs ih =>
      rw [sortBy]
      exact pairwise_insertBy x _ ih

/-- Pairs drawn in order from a pairwise-related list are related. -/
theorem orderedPairs_rel {α : Type} (R : α → α → Prop) (l : List α)
    (h : l.Pairwise R) : ∀ p ∈ orderedPairs l, R p.1 p.2 := by
  induction l with
  | nil => simp [orderedPairs]
  | cons x xs ih =>
      intro p hp
      rw [orderedPairs] at hp
      rcases List.mem_append.mp hp with h1 | h2
      · rcases List.mem_map.mp h1 with ⟨y, hy, rfl⟩
        exact (List.pairwise_cons.mp h).1 y hy
      · exact ih (List.pairwise_cons.mp h).2 p h2

/-- C5: every pair reported by `findDuplicates` meets the threshold with the
Jaccard similarity of the contents and is ordered by creation time; each
`deduplicate` iteration deletes the lower-importance record of its pair (an
importance tie deletes the later-created `duplicate`), first replacing the
survivor's tags with the duplicate-free union of both tag lists; with unique
ids, `deduplicate` returns exactly the number of rows removed from the
store. -/
theorem deduplicate_spec (st : StoreState) (thr : ℚ) :
    (∀ p ∈ findDuplicates st thr,
      thr ≤ p.2.2 ∧ p.2.2 = textSimilarity p.1.content p.2.1.content ∧
      p.1.created_at ≤ p.2.1.created_at) ∧
    (∀ p : Memory × Memory × ℚ,
      ((dedupDelete p).importance ≤ (dedupKeep p).importance) ∧
      (p.1.importance = p.2.1.importance → dedupDelete p = p.2.1) ∧
      (dedupMergedTags p).Nodup ∧
      (∀ x, x ∈ dedupMergedTags p ↔
        x ∈ (dedupKeep p).tags ∨ x ∈ (dedupDelete p).tags) ∧
      (∀ acc : ℕ × StoreState, ∀ m ∈ (dedupStep acc p).2.memories,
        m.id = (dedupKeep p).id → m.tags = dedupMergedTags p)) ∧
    ((st.memories.map (fun m => m.id)).Nodup →
      (deduplicate st thr).2.memories.length + (deduplicate st thr).1 =
        st.memories.length) := by
  refine ⟨?_, ?_, ?_⟩
  · intro p hp
    rw [findDuplicates] at hp
    have hmem := List.mem_filter.mp hp
    have hthr : thr ≤ p.2.2 := by simpa using hmem.2
    rcases List.mem_map.mp hmem.1 with ⟨q, hq, rfl⟩
    exact ⟨hthr, rfl,
      orderedPairs_rel _ _ (pairwise_sortBy st.memories) q hq⟩
  · intro p
    refine ⟨?_, ?_, firstDedup_nodup _, ?_, ?_⟩
    · rw [dedupDelete, dedupKeep]
      by_cases h : p.2.1.importance ≤ p.1.importance
      · rw [if_pos h, if_pos h]; exact h
      · rw [if_neg h, if_neg h]; linarith
    · intro he
      rw [dedupDelete, if_pos (le_of_eq he.symm)]
    · intro x
      rw [dedupMergedTags, mem_firstDedup, List.mem_append]
    · intro acc m hm hid
      have hm2 : m ∈ (delete (update acc.2 (dedupKeep p).id
          { tags := some (dedupMergedTags p) }).2 (dedupDelete p).id).2.memories := by
        rw [← (dedupStep_state acc p).1]
        exact hm
      rw [delete] at hm2
      have hm3 := (List.mem_filter.mp hm2).1
      rw [update] at hm3
      rw [if_neg (by simp [MemoryUpdate.hasField])] at hm3
      rcases List.mem_map.mp hm3 with ⟨m0, _, hm0⟩
      by_cases h0 : m0.id = (dedupKeep p).id
      · rw [if_pos (by simp [h0])] at hm0
        subst hm0
        simp [applyUpdates]
      · rw [if_neg (by simp [h0])] at hm0
        subst hm0
        exact absurd hid h0
  · intro hnd
    rw [deduplicate]
    exact dedup_fold (findDuplicates st thr) 0 st hnd

/-- Witness for C5: the counting conjunct applied to a concrete two-row store
with distinct ids. -/
theorem deduplicate_spec_witness :
    (deduplicate ⟨[⟨"a", .fact, "i love pizza", none, 5, 0, 0, 0, 1, ["x"], none, none⟩,
        ⟨"b", .fact, "i really love pizza", none, 5, 0, 1, 1, 1, ["y"], none, none⟩], []⟩
        (1/2)).2.memories.length +
      (deduplicate ⟨[⟨"a", .fact, "i love pizza", none, 5, 0, 0, 0, 1, ["x"], none, none⟩,
        ⟨"b", .fact, "i really love pizza", none, 5, 0, 1, 1, 1, ["y"], none, none⟩], []⟩
        (1/2)).1 = 2 :=
  (deduplicate_spec ⟨[⟨"a", .fact, "i love pizza", none, 5, 0, 0, 0, 1, ["x"], none, none⟩,
      ⟨"b", .fact, "i really love pizza", none, 5, 0, 1, 1, 1, ["y"], none, none⟩], []⟩
      (1/2)).2.2 (by decide)

/-- C8: `cosineSimilarity` is total — it returns 0 for mismatched lengths,
for empty vectors and whenever either norm vanishes, and returns
`dot(a,b) / (‖a‖·‖b‖)` on equal-length non-degenerate inputs. -/
theorem cosineSimilarity_spec (a b : List ℝ) :
    (a.length ≠ b.length → cosineSimilarity a b = 0) ∧
    (a = [] → cosineSimilarity a b = 0) ∧
    (vecNorm a = 0 → cosineSimilarity a b = 0) ∧
    (vecNorm b = 0 → cosineSimilarity a b = 0) ∧
    (a.length = b.length → a ≠ [] → vecNorm a ≠ 0 → vecNorm b ≠ 0 →
      cosineSimilarity a b = dotProduct a b / (vecNorm a * vecNorm b)) := by
  refine ⟨?_, ?_, ?_, ?_, ?_⟩
  · intro h
    rw [cosineSimilarity, if_pos (Or.inl h)]
  · intro h
    rw [cosineSimilarity, if_pos (Or.inr (by simp [h]))]
  · intro h
    by_cases hl : a.length ≠ b.length ∨ a.length = 0
    · rw [cosineSimilarity, if_pos hl]
    · rw [cosineSimilarity, if_neg hl]
      have hd : Real.sqrt ((a.map (fun x => x * x)).sum) *
          Real.sqrt ((b.map (fun x => x * x)).sum) = 0 := by
        rw [show Real.sqrt ((a.map (fun x => x * x)).sum) = vecNorm a from rfl,
          h, zero_mul]
      simp only [hd, if_pos]
  · intro h
    by_cases hl : a.length ≠ b.length ∨ a.length = 0
    · rw [cosineSimilarity, if_pos hl]
    · rw [cosineSimilarity, if_neg hl]
      have hd : Real.sqrt ((a.map (fun x => x * x)).sum) *
          Real.sqrt ((b.map (fun x => x * x)).sum) = 0 := by
        rw [show Real.sqrt ((b.map (fun x => x * x)).sum) = vecNorm b from rfl,
          h, mul_zero]
      simp only [hd, if_pos]
  · intro h1 h2 h3 h4
    rw [cosineSimilarity, if_neg (by
      push_neg
      exact ⟨h1, by simpa [List.length_eq_zero] using h2⟩)]
    have hd : Real.sqrt ((a.map (fun x => x * x)).sum) *
        Real.sqrt ((b.map (fun x => x * x)).sum) = vecNorm a * vecNorm b := rfl
    rw [hd, if_neg (mul_ne_zero h3 h4)]
    rfl

/-- Witness for C8: a pair of parallel one-dimensional vectors has cosine
similarity 1, and mismatched lengths give 0. -/
theorem cosineSimilarity_spec_witness :
    cosineSimilarity [(3 : ℝ)] [(4 : ℝ)] = 1 ∧
    cosineSimilarity [(1 : ℝ), 0] [(5 : ℝ)] = 0 := by
  have hna : vecNorm [(3 : ℝ)] = 3 := by
    rw [vecNorm]
    simp only [List.map_cons, List.map_nil, List.sum_cons, List.sum_nil, add_zero]
    rw [show (3 : ℝ) * 3 = 3 ^ 2 by ring, Real.sqrt_sq (by norm_num : (0:ℝ) ≤ 3)]
  have hnb : vecNorm [(4 : ℝ)] = 4 := by
    rw [vecNorm]
    simp only [List.map_cons, List.map_nil, List.sum_cons, List.sum_nil, add_zero]
    rw [show (4 : ℝ) * 4 = 4 ^ 2 by ring, Real.sqrt_sq (by norm_num : (0:ℝ) ≤ 4)]
  constructor
  · have h := (cosineSimilarity_spec [(3 : ℝ)] [(4 : ℝ)]).2.2.2.2 rfl (by simp)
      (by rw [hna]; norm_num) (by rw [hnb]; norm_num)
    rw [h, hna, hnb]
    norm_num [dotProduct]
  · exact (cosineSimilarity_spec [(1 : ℝ), 0] [(5 : ℝ)]).1 (by simp)

/-- Facts about digit characters, used to read serialized numbers back. -/
theorem digitChar_facts : ∀ d, d < 10 →
    (Nat.digitChar d).isDigit = true ∧ (Nat.digitChar d).toNat - 48 = d ∧
    Nat.digitChar d ≠ 'n' ∧ Nat.digitChar d ≠ 't' ∧ Nat.digitChar d ≠ 'f' ∧
    Nat.digitChar d ≠ '"' ∧ Nat.digitChar d ≠ '[' ∧ Nat.digitChar d ≠ lbrace ∧
    Nat.digitChar d ≠ '-' ∧ Nat.digitChar d ≠ ']' ∧ Nat.digitChar d ≠ ',' ∧
    Nat.digitChar d ≠ rbrace ∧ Nat.digitChar d ≠ ':' := by decide

/-- Zero has no fueled digits. -/
theorem natDigitsAux_zero (f : ℕ) : natDigitsAux f 0 = [] := by
  cases f <;> rfl

/-- Every fueled digit is below 10. -/
theorem natDigitsAux_lt : ∀ (f n : ℕ), ∀ d ∈ natDigitsAux f n, d < 10 := by
  intro f
  induction f with
  | zero =>
      intro n d hd
      cases n <;> simp [natDigitsAux] at hd
  | succ f ih =>
      intro n d hd
      cases n with
      | zero => simp [natDigitsAux] at hd
      | succ m =>
          rw [natDigitsAux] at hd
          rcases List.mem_cons.mp hd with rfl | h
          · omega
          · exact ih _ d h

/-- With enough fuel, the digit list evaluates back to its number. -/
theorem ofLE_natDigitsAux (n : ℕ) : ∀ (f : ℕ), 0 < n → n ≤ f →
    ofLE (natDigitsAux f n) = n := by
  induction n using Nat.strong_induction_on with
  | _ n ih =>
      intro f hpos hle
      cases f with
      | zero => omega
      | succ f' =>
          cases n with
          | zero => omega
          | succ m =>
              rw [natDigitsAux, ofLE]
              by_cases h10 : (m + 1) / 10 = 0
              · rw [h10, natDigitsAux_zero]
                have := Nat.div_add_mod (m + 1) 10
                simp only [ofLE]
                omega
              · have hlt : (m + 1) / 10 < m + 1 := Nat.div_lt_self (by omega) (by omega)
                rw [ih ((m + 1) / 10) hlt f' (Nat.pos_of_ne_zero h10) (by omega)]
                have := Nat.div_add_mod (m + 1) 10
                omega

/-- A positive number has at least one fueled digit. -/
theorem natDigitsAux_ne_nil (f n : ℕ) (hpos : 0 < n) (hle : n ≤ f) :
    natDigitsAux f n ≠ [] := by
  cases f with
  | zero => omega
  | succ f' =>
      cases n with
      | zero => omega
      | succ m => rw [natDigitsAux]; simp

/-- Big-endian digits are below 10. -/
theorem natDigitsBE_lt (n : ℕ) : ∀ d ∈ natDigitsBE n, d < 10 := by
  intro d hd
  rw [natDigitsBE] at hd
  by_cases h : n = 0
  · rw [if_pos h] at hd
    simp at hd
    omega
  · rw [if_neg h] at hd
    exact natDigitsAux_lt n n d (List.mem_reverse.mp hd)

/-- The big-endian digit list is never empty. -/
theorem natDigitsBE_ne_nil (n : ℕ) : natDigitsBE n ≠ [] := by
  rw [natDigitsBE]
  by_cases h : n = 0
  · rw [if_pos h]; simp
  · rw [if_neg h]
    simp only [ne_eq, List.reverse_eq_nil_iff]
    exact natDigitsAux_ne_nil n n (Nat.pos_of_ne_zero h) le_rfl

/-- Reading a reversed little-endian digit list gives its value. -/
theorem valOfDigits_reverse (l : List ℕ) : valOfDigits l.reverse = ofLE l := by
  induction l with
  | nil => rfl
  | cons d ds ih =>
      rw [List.reverse_cons]
      rw [show valOfDigits (ds.reverse ++ [d]) =
        List.foldl (fun a d => a * 10 + d) 0 (ds.reverse ++ [d]) from rfl]
      rw [List.foldl_append]
      simp only [List.foldl_cons, List.foldl_nil]
      rw [show List.foldl (fun a d => a * 10 + d) 0 ds.reverse = ofLE ds from ih]
      rw [ofLE]
      omega

/-- Reading the big-endian digits gives the number back. -/
theorem valOfDigits_natDigitsBE (n : ℕ) : valOfDigits (natDigitsBE n) = n := by
  rw [natDigitsBE]
  by_cases h : n = 0
  · rw [if_pos h, h]; rfl
  · rw [if_neg h, valOfDigits_reverse,
      ofLE_natDigitsAux n n (Nat.pos_of_ne_zero h) le_rfl]

/-- Consuming a rendered digit run recovers the digits and the rest. -/
theorem takeDigits_spec : ∀ (ds : List ℕ) (rest : List Char),
    (∀ d ∈ ds, d < 10) → headNotDigit rest →
    takeDigits (ds.map Nat.digitChar ++ rest) = (ds, rest) := by
  intro ds
  induction ds with
  | nil =>
      intro rest _ hrest
      cases rest with
      | nil => rfl
      | cons c cs =>
          rw [List.map_nil, List.nil_append, takeDigits,
            if_neg (by simp [hrest c rfl])]
  | cons d ds ih =>
      intro rest hlt hrest
      have hfacts := digitChar_facts d (hlt d (by simp))
      simp only [List.map_cons, List.cons_append]
      rw [takeDigits, if_pos hfacts.1,
        ih rest (fun x hx => hlt x (by simp [hx])) hrest]
      simp [hfacts.2.1]

/-- The head of a rendered integer is a minus sign or a digit, never a JSON
structural character. -/
theorem intChars_head (i : ℤ) : ∃ c cs, intChars i = c :: cs ∧
    c ≠ 'n' ∧ c ≠ 't' ∧ c ≠ 'f' ∧ c ≠ '"' ∧ c ≠ '[' ∧ c ≠ lbrace ∧
    c ≠ ']' ∧ c ≠ ',' ∧ c ≠ rbrace := by
  have hnat : ∀ n : ℕ, ∃ c cs, natChars n = c :: cs ∧
      c ≠ 'n' ∧ c ≠ 't' ∧ c ≠ 'f' ∧ c ≠ '"' ∧ c ≠ '[' ∧ c ≠ lbrace ∧
      c ≠ ']' ∧ c ≠ ',' ∧ c ≠ rbrace := by
    intro n
    rcases hBE : natDigitsBE n with _ | ⟨d, ds⟩
    · exact absurd hBE (natDigitsBE_ne_nil n)
    · have hd : d < 10 := natDigitsBE_lt n d (by rw [hBE]; simp)
      have hfacts := digitChar_facts d hd
      exact ⟨Nat.digitChar d, ds.map Nat.digitChar, by rw [natChars, hBE]; rfl,
        hfacts.2.2.1, hfacts.2.2.2.1, hfacts.2.2.2.2.1, hfacts.2.2.2.2.2.1,
        hfacts.2.2.2.2.2.2.1, hfacts.2.2.2.2.2.2.2.1,
        hfacts.2.2.2.2.2.2.2.2.2.1, hfacts.2.2.2.2.2.2.2.2.2.2.1,
        hfacts.2.2.2.2.2.2.2.2.2.2.2.1⟩
  rw [intChars]
  by_cases hneg : i < 0
  · rw [if_pos hneg]
    exact ⟨'-', natChars i.natAbs, rfl, by decide, by decide, by decide,
      by decide, by decide, by decide, by decide, by decide, by decide⟩
  · rw [if_neg hneg]
    exact hnat i.toNat

/-- Parsing a rendered integer recovers it. -/
theorem parseIntChars_intChars (i : ℤ) (rest : List Char)
    (hrest : headNotDigit rest) :
    parseIntChars (intChars i ++ rest) = some (i, rest) := by
  have hnat : ∀ n : ℕ, ∃ d ds, natDigitsBE n = d :: ds ∧
      takeDigits (natChars n ++ rest) = (d :: ds, rest) ∧
      valOfDigits (d :: ds) = n := by
    intro n
    rcases hBE : natDigitsBE n with _ | ⟨d, ds⟩
    · exact absurd hBE (natDigitsBE_ne_nil n)
    · refine ⟨d, ds, rfl, ?_, by rw [← hBE]; exact valOfDigits_natDigitsBE n⟩
      rw [natChars, hBE]
      exact takeDigits_spec (d :: ds) rest
        (fun x hx => natDigitsBE_lt n x (by rw [hBE]; exact hx)) hrest
  rw [intChars]
  by_cases hneg : i < 0
  · rw [if_pos hneg]
    obtain ⟨d, ds, _, htd, hval⟩ := hnat i.natAbs
    rw [List.cons_append, parseIntChars, if_pos rfl, htd]
    simp only [hval]
    refine congrArg some (Prod.ext ?_ rfl)
    simp only
    omega
  · rw [if_neg hneg]
    obtain ⟨c, cs, hnc, hfacts⟩ := intChars_head i
    rw [intChars, if_neg hneg] at hnc
    obtain ⟨d, ds, _, htd, hval⟩ := hnat i.toNat
    have hcne : c ≠ '-' := by
      rcases hBE : natDigitsBE i.toNat with _ | ⟨d', ds'⟩
      · exact absurd hBE (natDigitsBE_ne_nil i.toNat)
      · have : natChars i.toNat = Nat.digitChar d' :: ds'.map Nat.digitChar := by
          rw [natChars, hBE]; rfl
        rw [this] at hnc
        have hd' : d' < 10 := natDigitsBE_lt i.toNat d' (by rw [hBE]; simp)
        rw [show c = Nat.digitChar d' from ((List.cons.injEq _ _ _ _).mp hnc).1.symm]
        exact (digitChar_facts d' hd').2.2.2.2.2.2.2.2.1
    rw [hnc, List.cons_append, parseIntChars, if_neg hcne, ← List.cons_append,
      ← hnc, htd]
    simp only [hval]
    refine congrArg some (Prod.ext ?_ rfl)
    simp only
    omega

/-- Reading back a hex digit recovers the value it renders. -/
theorem parseHex_hexDigit : ∀ n, n < 16 → parseHex (hexDigit n) = some n := by
  decide

/-- Parsing after one escaped character peels that character off. -/
theorem parseStrBody_escape (c : Char) (cont : List Char) :
    parseStrBody (escapeChar c ++ cont) =
      (parseStrBody cont).map (fun p => (c :: p.1, p.2)) := by
  rw [escapeChar]
  split_ifs with h1 h2 h3 h4 h5 h6 h7 h8
  · subst h1
    cases hp : parseStrBody cont with
    | none => simp [parseStrBody, unescapeChar, hp]
    | some p =>
        obtain ⟨s, r⟩ := p
        simp [parseStrBody, unescapeChar, hp]
  · subst h2
    cases hp : parseStrBody cont with
    | none => simp [parseStrBody, unescapeChar, hp]
    | some p =>
        obtain ⟨s, r⟩ := p
        simp [parseStrBody, unescapeChar, hp]
  · have hc : c = Char.ofNat 10 := by rw [← h3, Char.ofNat_toNat]
    cases hp : parseStrBody cont with
    | none => simp [parseStrBody, unescapeChar, hp]
    | some p =>
        obtain ⟨s, r⟩ := p
        simp [parseStrBody, unescapeChar, hp, hc]
  · have hc : c = Char.ofNat 13 := by rw [← h4, Char.ofNat_toNat]
    cases hp : parseStrBody cont with
    | none => simp [parseStrBody, unescapeChar, hp]
    | some p =>
        obtain ⟨s, r⟩ := p
        simp [parseStrBody, unescapeChar, hp, hc]
  · have hc : c = Char.ofNat 9 := by rw [← h5, Char.ofNat_toNat]
    cases hp : parseStrBody cont with
    | none => simp [parseStrBody, unescapeChar, hp]
    | some p =>
        obtain ⟨s, r⟩ := p
        simp [parseStrBody, unescapeChar, hp, hc]
  · have hc : c = Char.ofNat 8 := by rw [← h6, Char.ofNat_toNat]
    cases hp : parseStrBody cont with
    | none => simp [parseStrBody, unescapeChar, hp]
    | some p =>
        obtain ⟨s, r⟩ := p
        simp [parseStrBody, unescapeChar, hp, hc]
  · have hc : c = Char.ofNat 12 := by rw [← h7, Char.ofNat_toNat]
    cases hp : parseStrBody cont with
    | none => simp [parseStrBody, unescapeChar, hp]
    | some p =>
        obtain ⟨s, r⟩ := p
        simp [parseStrBody, unescapeChar, hp, hc]
  · have h16a : c.toNat / 16 < 16 := by omega
    have h16b : c.toNat % 16 < 16 := by omega
    have hc : Char.ofNat (c.toNat / 16 * 16 + c.toNat % 16) = c := by
      rw [show c.toNat / 16 * 16 + c.toNat % 16 = c.toNat by omega]
      exact Char.ofNat_toNat c
    cases hp : parseStrBody cont with
    | none =>
        simp [parseStrBody, parseHex, parseHex_hexDigit _ h16a,
          parseHex_hexDigit _ h16b, hp]
    | some p =>
        obtain ⟨s, r⟩ := p
        simp only [List.cons_append, List.nil_append, parseStrBody,
          if_neg (by decide : ¬ ('\\' : Char) = '"'), if_pos rfl,
          if_pos (rfl : ('u' : Char) = 'u'),
          parseHex_hexDigit _ h16a, parseHex_hexDigit _ h16b]
        rw [show parseHex '0' = some 0 by decide]
        simp [hp, hc]
  · cases hp : parseStrBody cont with
    | none => simp [parseStrBody, hp, h1, h2]
    | some p =>
        obtain ⟨s, r⟩ := p
        simp [parseStrBody, hp, h1, h2]

/-- Parsing an encoded string body recovers it together with the rest. -/
theorem parseStrBody_encode (cs cont : List Char) :
    parseStrBody ((cs.map escapeChar).flatten ++ '"' :: cont) = some (cs, cont) := by
  induction cs with
  | nil =>
      rw [List.map_nil, List.flatten_nil, List.nil_append, parseStrBody]
  | cons c cs ih =>
      rw [List.map_cons, List.flatten_cons, List.append_assoc,
        parseStrBody_escape, ih]
      rfl

/-- Every serialized value starts with a character that cannot close or
separate an enclosing array or object. -/
theorem serJson_head (v : Json) : ∃ c cs, serJson v = c :: cs ∧
    c ≠ ']' ∧ c ≠ ',' ∧ c ≠ rbrace := by
  cases v with
  | null =>
      exact ⟨'n', ['u', 'l', 'l'], by rw [serJson]; rfl, by decide, by decide,
        by decide⟩
  | bool b =>
      cases b with
      | true => exact ⟨'t', ['r', 'u', 'e'], by rw [serJson]; rfl, by decide,
          by decide, by decide⟩
      | false => exact ⟨'f', ['a', 'l', 's', 'e'], by rw [serJson]; rfl,
          by decide, by decide, by decide⟩
  | num n =>
      obtain ⟨c, cs, hn, hf⟩ := intChars_head n
      exact ⟨c, cs, by rw [serJson]; exact hn, hf.2.2.2.2.2.2.1,
        hf.2.2.2.2.2.2.2.1, hf.2.2.2.2.2.2.2.2⟩
  | str s =>
      exact ⟨'"', (s.data.map escapeChar).flatten ++ ['"'],
        by rw [serJson, encodeStr]; exact List.cons_append _ _ _,
        by decide, by decide, by decide⟩
  | arr es =>
      exact ⟨'[', serElems es ++ [']'],
        by rw [serJson]; exact List.cons_append _ _ _,
        by decide, by decide, by decide⟩
  | obj fs =>
      exact ⟨lbrace, serFields fs ++ [rbrace],
        by rw [serJson]; exact List.cons_append _ _ _,
        by decide, by decide, by decide⟩

/-- Serialized nonempty element lists start like a serialized value. -/
theorem serElems_head (es : List Json) (h : es ≠ []) : ∃ c cs,
    serElems es = c :: cs ∧ c ≠ ']' ∧ c ≠ ',' ∧ c ≠ rbrace := by
  match es with
  | [] => exact absurd rfl h
  | [v] =>
      obtain ⟨c, cs, hv, hf⟩ := serJson_head v
      exact ⟨c, cs, by rw [serElems]; exact hv, hf⟩
  | v :: v' :: vs =>
      obtain ⟨c, cs, hv, hf⟩ := serJson_head v
      refine ⟨c, cs ++ ',' :: serElems (v' :: vs), ?_, hf⟩
      rw [serElems, hv, List.cons_append]
      simp

mutual

/-- The parse fuel needed for a value is covered by its rendered length. -/
theorem jsize_le_len (v : Json) : jsize v ≤ (serJson v).length := by
  cases v with
  | null => rw [jsize, serJson]; simp [nullChars]
  | bool b => cases b <;> rw [jsize, serJson] <;> simp [trueChars, falseChars]
  | num n =>
      obtain ⟨c, cs, hn, _⟩ := intChars_head n
      rw [jsize, serJson, hn]
      simp
  | str s =>
      rw [jsize, serJson, encodeStr]
      simp
  | arr es =>
      have h := jsizeElems_le_len es
      rw [jsize, serJson]
      simp only [List.length_cons, List.length_append, List.length_cons,
        List.length_nil]
      omega
  | obj fs =>
      have h := jsizeFields_le_len fs
      rw [jsize, serJson]
      simp only [List.length_cons, List.length_append, List.length_cons,
        List.length_nil]
      omega

/-- The parse fuel needed for array elements is covered by their rendering. -/
theorem jsizeElems_le_len (es : List Json) :
    jsizeElems es ≤ (serElems es).length + 1 := by
  match es with
  | [] => rw [jsizeElems]; omega
  | [v] =>
      have h := jsize_le_len v
      rw [jsizeElems, jsizeElems, serElems]
      omega
  | v :: v' :: vs =>
      have h1 := jsize_le_len v
      have h2 := jsizeElems_le_len (v' :: vs)
      rw [jsizeElems, serElems]
      · simp only [List.length_append, List.length_cons]
        omega
      · simp

/-- The parse fuel needed for object fields is covered by their rendering. -/
theorem jsizeFields_le_len (fs : List (String × Json)) :
    jsizeFields fs ≤ (serFields fs).length + 1 := by
  match fs with
  | [] => rw [jsizeFields]; omega
  | [(k, v)] =>
      have h := jsize_le_len v
      rw [jsizeFields, jsizeFields, serFields]
      simp only [List.length_append, List.length_cons]
      omega
  | (k, v) :: f' :: fs' =>
      have h1 := jsize_le_len v
      have h2 := jsizeFields_le_len (f' :: fs')
      rw [jsizeFields, serFields]
      · simp only [List.length_append, List.length_cons]
        omega
      · simp

end

/-- A non-digit head is a safe continuation for number parsing. -/
theorem headNotDigit_cons (c : Char) (h : c.isDigit = false) (cs : List Char) :
    headNotDigit (c :: cs) := by
  intro c' hc'
  simp only [List.head?_cons, Option.some.injEq] at hc'
  rw [← hc']
  exact h

/-- The empty continuation is safe for number parsing. -/
theorem headNotDigit_nil : headNotDigit [] := by
  intro c hc
  simp at hc

/-- Every value needs at least one unit of fuel. -/
theorem jsize_pos (v : Json) : 1 ≤ jsize v := by
  cases v <;> rw [jsize] <;> omega

/-- Parsing a serialized value (then elements, then fields) consumes exactly
the rendering, given fuel covering the value's size. -/
theorem parse_ser_aux : ∀ f : ℕ,
    (∀ (v : Json) (rest : List Char), jsize v ≤ f → headNotDigit rest →
      parseVal f (serJson v ++ rest) = some (v, rest)) ∧
    (∀ (es : List Json) (rest : List Char), es ≠ [] → jsizeElems es ≤ f →
      parseElems f (serElems es ++ ']' :: rest) = some (es, rest)) ∧
    (∀ (fs : List (String × Json)) (rest : List Char), fs ≠ [] →
      jsizeFields fs ≤ f →
      parseFields f (serFields fs ++ rbrace :: rest) = some (fs, rest)) := by
  intro f
  induction f with
  | zero =>
      refine ⟨?_, ?_, ?_⟩
      · intro v rest hs _
        have := jsize_pos v
        omega
      · intro es rest hne hs
        match es with
        | v :: vs =>
            rw [jsizeElems] at hs
            omega
      · intro fs rest hne hs
        match fs with
        | (k, v) :: fs' =>
            rw [jsizeFields] at hs
            omega
  | succ f ih =>
      obtain ⟨ihV, ihE, ihF⟩ := ih
      refine ⟨?_, ?_, ?_⟩
      · intro v rest hs hrest
        cases v with
        | null =>
            rw [serJson]
            simp [nullChars, parseVal, dropLit]
        | bool b =>
            cases b <;> rw [serJson] <;>
              simp [trueChars, falseChars, parseVal, dropLit]
        | num n =>
            obtain ⟨c, cs, hn, hf1, hf2, hf3, hf4, hf5, hf6, _, _, _⟩ :=
              intChars_head n
            rw [serJson, hn, List.cons_append]
            simp only [parseVal]
            rw [if_neg hf1, if_neg hf2, if_neg hf3, if_neg hf4, if_neg hf5,
              if_neg hf6, ← List.cons_append, ← hn,
              parseIntChars_intChars n rest hrest]
            rfl
        | str s =>
            rw [serJson, encodeStr]
            rw [show (('"' :: (s.data.map escapeChar).flatten) ++ ['"']) ++ rest =
              '"' :: ((s.data.map escapeChar).flatten ++ '"' :: rest) by simp]
            simp only [parseVal, if_true]
            rw [parseStrBody_encode]
            rfl
        | arr es =>
            by_cases he : es = []
            · subst he
              rw [serJson, serElems]
              rw [show (('[' :: ([] : List Char)) ++ [']']) ++ rest =
                '[' :: ']' :: rest by simp]
              simp [parseVal]
            · obtain ⟨c2, cs2, hse, hf⟩ := serElems_head es he
              rw [serJson]
              rw [show (('[' :: serElems es) ++ [']']) ++ rest =
                '[' :: (serElems es ++ ']' :: rest) by simp]
              rw [hse, List.cons_append]
              simp only [parseVal, if_true]
              rw [if_neg hf.1, ← List.cons_append, ← hse]
              rw [ihE es rest he (by rw [jsize] at hs; omega)]
              rfl
        | obj fs =>
            by_cases he : fs = []
            · subst he
              rw [serJson, serFields]
              rw [show ((lbrace :: ([] : List Char)) ++ [rbrace]) ++ rest =
                lbrace :: rbrace :: rest by simp]
              simp [parseVal, lbrace, rbrace]
            · obtain ⟨k1, v1, fs', hfs⟩ :
                  ∃ k1 v1 fs', fs = (k1, v1) :: fs' := by
                match fs with
                | (k1, v1) :: fs' => exact ⟨k1, v1, fs', rfl⟩
              rw [serJson]
              rw [show ((lbrace :: serFields fs) ++ [rbrace]) ++ rest =
                lbrace :: (serFields fs ++ rbrace :: rest) by simp]
              have hkey : ∃ ks, serFields fs = '"' :: ks := by
                subst hfs
                match fs' with
                | [] =>
                    refine ⟨(k1.data.map escapeChar).flatten ++
                      '"' :: ':' :: serJson v1, ?_⟩
                    rw [serFields, encodeStr]
                    simp
                | f2 :: fs'' =>
                    refine ⟨(k1.data.map escapeChar).flatten ++
                      '"' :: ':' :: (serJson v1 ++ ',' :: serFields (f2 :: fs'')), ?_⟩
                    rw [serFields, encodeStr]
                    · simp
                    · simp
              obtain ⟨ks, hks⟩ := hkey
              rw [hks, List.cons_append]
              simp only [parseVal, if_true]
              rw [if_neg (show ¬ ('"' : Char) = rbrace by decide),
                ← List.cons_append, ← hks]
              rw [ihF fs rest he (by rw [jsize] at hs; omega)]
              rfl
      · intro es rest hne hs
        match es with
        | [v] =>
            rw [jsizeElems, jsizeElems] at hs
            rw [serElems]
            simp [parseElems, ihV v (']' :: rest) (by omega)
              (headNotDigit_cons ']' (by decide) rest)]
        | v :: v' :: vs =>
            rw [jsizeElems] at hs
            rw [serElems]
            rw [show (serJson v ++ ',' :: serElems (v' :: vs)) ++ ']' :: rest =
              serJson v ++ ',' :: (serElems (v' :: vs) ++ ']' :: rest) by simp]
            simp [parseElems,
              ihV v (',' :: (serElems (v' :: vs) ++ ']' :: rest))
                (by omega) (headNotDigit_cons ',' (by decide) _),
              ihE (v' :: vs) rest (by simp) (by omega)]
            simp
      · intro fs rest hne hs
        match fs with
        | [(k, v)] =>
            rw [jsizeFields, jsizeFields] at hs
            rw [serFields, encodeStr]
            rw [show ((('"' :: (k.data.map escapeChar).flatten) ++ ['"']) ++
                ':' :: serJson v) ++ rbrace :: rest =
              '"' :: ((k.data.map escapeChar).flatten ++
                '"' :: (':' :: (serJson v ++ rbrace :: rest))) by simp]
            simp [parseFields, parseStrBody_encode,
              ihV v (rbrace :: rest) (by omega)
                (headNotDigit_cons rbrace (by decide) rest),
              show ¬ (rbrace : Char) = ',' by decide]
        | (k, v) :: f2 :: fs' =>
            rw [jsizeFields] at hs
            rw [serFields, encodeStr]
            rw [show (((('"' :: (k.data.map escapeChar).flatten) ++ ['"']) ++
                ':' :: serJson v) ++ ',' :: serFields (f2 :: fs')) ++
                rbrace :: rest =
              '"' :: ((k.data.map escapeChar).flatten ++
                '"' :: (':' :: (serJson v ++
                  ',' :: (serFields (f2 :: fs') ++ rbrace :: rest)))) by simp]
            simp [parseFields, parseStrBody_encode,
              ihV v (',' :: (serFields (f2 :: fs') ++ rbrace :: rest))
                (by omega) (headNotDigit_cons ',' (by decide) _),
              ihF (f2 :: fs') rest (by simp) (by omega)]
            simp

/-- The `JSON.parse` model inverts the `JSON.stringify` model. -/
theorem parseJson_serJson (v : Json) : parseJson (serJson v) = some v := by
  have h := (parse_ser_aux (serJson v).length).1 v [] (jsize_le_len v)
    headNotDigit_nil
  rw [List.append_nil] at h
  rw [parseJson, h]

/-- C9: `saveBlob` then `loadBlob` on the same key returns a value deep-equal
to the one saved, for every JSON-serializable value including nested arrays
and objects; a later `saveBlob` to the same key wholly overwrites the earlier
value (last write wins). -/
theorem saveState_loadState (st : StoreState) (k : String) (v : Json)
    (now : ℤ) :
    loadState (saveState st k v now) k = some v ∧
    (∀ (v' : Json) (now' : ℤ),
      loadState (saveState (saveState st k v' now') k v now) k = some v) := by
  have hload : ∀ st', loadState (saveState st' k v now) k = some v := by
    intro st'
    rw [loadState, saveState]
    rw [show List.find? (fun r => r.key == k)
        ((⟨k, serJson v, now⟩ : StateRow) ::
          st'.stateRows.filter (fun r => !(r.key == k))) =
        some ⟨k, serJson v, now⟩ from List.find?_cons_of_pos _ (by simp)]
    exact parseJson_serJson v
  exact ⟨hload st, fun v' now' => hload (saveState st k v' now')⟩

end Nexi

